import Mathlib

set_option maxHeartbeats 1000000

/-!
Shallow embedding of the UAS legal case retrieval pipeline
(`scripts/02_case_representation.py`, `scripts/03_retrieval.py`,
`scripts/04_predict.py`, `scripts/05_evaluation.py`) together with proofs
about the spec claims.

Modeling conventions:
* Python floats are modeled as rationals (`ℚ`); Python lists as Lean lists;
  Python dicts (which preserve insertion order) as association lists.
* Python's stable `sorted` with a score key is modeled as an insertion sort
  over elements paired with their original position, ordered lexicographically
  by (key, position) - which is exactly what a stable sort produces.
* `numpy.argsort` is modeled as the deterministic stable ascending argsort
  (ties ordered by index).
* Strings are processed as `List Char`; Python regular expressions are
  translated into explicit scanners with the same backtracking behavior
  on the relevant character classes (ASCII casing).
-/

namespace UAS

/-- Stable insertion of `a` into `l` by a Boolean comparator: `a` is placed
before the first element `b` with `le a b = true`. -/
def insertLe (le : α → α → Bool) (a : α) : List α → List α
  | [] => [a]
  | b :: bs => if le a b then a :: b :: bs else b :: insertLe le a bs

/-- Insertion sort by a Boolean comparator (a stable sort). -/
def sortBy (le : α → α → Bool) : List α → List α
  | [] => []
  | a :: as => insertLe le a (sortBy le as)

/-- First-occurrence deduplication, as performed by Python's
`list(dict.fromkeys(xs))` and by building a `set`. -/
def dedupFirstAux [DecidableEq α] (seen : List α) : List α → List α
  | [] => []
  | a :: as => if a ∈ seen then dedupFirstAux seen as else a :: dedupFirstAux (a :: seen) as

/-- First-occurrence deduplication of a list. -/
def dedupFirst [DecidableEq α] (l : List α) : List α := dedupFirstAux [] l

/-! ### 03_retrieval.py -/

/-- `normalize_scores` (03_retrieval.py lines 112-120): min-max normalization
of a score list into [0,1]; an empty list stays empty and a constant list is
mapped to all zeros. -/
def normalize_scores (scores : List ℚ) : List ℚ :=
  match scores with
  | [] => []
  | s0 :: rest =>
    let min_score := rest.foldl min s0
    let max_score := rest.foldl max s0
    if max_score = min_score then (s0 :: rest).map (fun _ => (0 : ℚ))
    else (s0 :: rest).map (fun s => (s - min_score) / (max_score - min_score))

/-- Ascending-argsort comparator on indices into `scores`: compare scores,
break ties by index (the deterministic stable reading of `numpy.argsort`). -/
def argsortLe (scores : List ℚ) (i j : ℕ) : Bool :=
  decide (scores.getD i 0 < scores.getD j 0) ||
    (decide (scores.getD i 0 = scores.getD j 0) && decide (i ≤ j))

/-- Model of `sim_scores.argsort()` in 03_retrieval.py: the list of all
indices of `scores`, sorted ascending by score (ties by index). -/
def argsort (scores : List ℚ) : List ℕ :=
  sortBy (argsortLe scores) (List.range scores.length)

/-- Model of `sim_scores.argsort()[::-1][:top_k]` (03_retrieval.py line 156):
indices of the `top_k` largest scores, in descending score order. -/
def top_indices (scores : List ℚ) (top_k : ℕ) : List ℕ :=
  ((argsort scores).reverse).take top_k

/-- The per-query body of `retrieve_by_tfidf` (03_retrieval.py lines 155-163),
taking the cosine-similarity row `sim_scores` of one query against all cases
as input; `retrieve_by_bert` (lines 191-199) performs the identical
computation on its own similarity row. Returns the retrieved case ids and
their min-max normalized scores. -/
def retrieve_by_tfidf_query (case_ids : List String) (sim_scores : List ℚ)
    (top_k : ℕ) : List String × List ℚ :=
  let tis := top_indices sim_scores top_k
  let top_cases_ids := tis.map (fun j => case_ids.getD j "")
  let similarity_scores := tis.map (fun j => sim_scores.getD j 0)
  (top_cases_ids, normalize_scores similarity_scores)

/-- `combined_scores.get(case_id, 0.0) + v` followed by assignment, i.e. the
insertion-order-preserving add-or-update of a Python dict, on an association
list. -/
def dictAdd : List (String × ℚ) → String → ℚ → List (String × ℚ)
  | [], id, v => [(id, v)]
  | (key, w) :: rest, id, v =>
    if key = id then (key, w + v) :: rest else (key, w) :: dictAdd rest id v

/-- Lookup of the first binding of a key in an association list (the value a
Python dict holds for that key). -/
def lookupQ : List (String × ℚ) → String → Option ℚ
  | [], _ => none
  | (key, v) :: rest, id => if key = id then some v else lookupQ rest id

/-- The `combined_scores` dict built by `retrieve_by_hybrid`
(03_retrieval.py lines 224-232): each method contributes `score * 0.5`,
TF-IDF entries first, then BERT entries. -/
def combined_scores (tfidf bert : List (String × ℚ)) : List (String × ℚ) :=
  bert.foldl (fun d p => dictAdd d p.1 (p.2 * (1/2)))
    (tfidf.foldl (fun d p => dictAdd d p.1 (p.2 * (1/2))) [])

/-- Comparator modeling Python's stable
`sorted(items, key=lambda item: item[1], reverse=True)` on dict items paired
with their insertion position: descending by score, ties by position. -/
def hybridLe (a b : ℕ × (String × ℚ)) : Bool :=
  decide (b.2.2 < a.2.2) || (decide (a.2.2 = b.2.2) && decide (a.1 ≤ b.1))

/-- `sorted_cases` of `retrieve_by_hybrid` (03_retrieval.py line 234), with
each dict item carrying its insertion position. -/
def sorted_cases (d : List (String × ℚ)) : List (ℕ × (String × ℚ)) :=
  sortBy hybridLe d.enum

/-- The per-query body of `retrieve_by_hybrid` (03_retrieval.py lines
218-239): runs the TF-IDF-style ranking on both similarity rows at `top_k*2`,
merges the two normalized result lists through `combined_scores`, re-sorts
descending and truncates to `top_k`. -/
def retrieve_by_hybrid_query (case_ids : List String)
    (tfidf_sims bert_sims : List ℚ) (top_k : ℕ) : List String × List ℚ :=
  let t := retrieve_by_tfidf_query case_ids tfidf_sims (top_k * 2)
  let b := retrieve_by_tfidf_query case_ids bert_sims (top_k * 2)
  let sc := (sorted_cases (combined_scores (t.1.zip t.2) (b.1.zip b.2))).map Prod.snd
  ((sc.take top_k).map Prod.fst, (sc.take top_k).map Prod.snd)

/-! ### Character-level utilities shared by the extractors

The extractors of 02_case_representation.py, 04_predict.py and
05_evaluation.py work through Python regular expressions and string methods.
They are modeled here as explicit scanners over `List Char`, with Python's
whitespace class `\s` / `str.strip` and the ASCII classes `\d`, `[a-zA-Z]`,
`\w` rendered as character predicates (casing is modeled on ASCII). -/

/-- The characters Python treats as whitespace (`\s` in `re` on `str`,
`str.strip`, `str.isspace`). -/
def pyWsChars : List Char :=
  [' ', '\t', '\n', '\r', '\x0b', '\x0c',
   '\x1c', '\x1d', '\x1e', '\x1f', '\x85', '\xa0',
   ' ', ' ', ' ', ' ', ' ', ' ', ' ',
   ' ', ' ', ' ', ' ', ' ',
   ' ', ' ', ' ', ' ', '　']

/-- Whitespace test. -/
def pyWs (c : Char) : Bool := pyWsChars.contains c

/-- Case-insensitive literal match: `pat` is given in lowercase; on success
returns the remaining input. -/
def matchLitCi : List Char → List Char → Option (List Char)
  | [], cs => some cs
  | _ :: _, [] => none
  | p :: ps, c :: cs => if c.toLower = p then matchLitCi ps cs else none

/-- Case-sensitive literal match; on success returns the remaining input. -/
def matchLit : List Char → List Char → Option (List Char)
  | [], cs => some cs
  | _ :: _, [] => none
  | p :: ps, c :: cs => if c = p then matchLit ps cs else none

/-- Collapse every maximal run of `p`-characters to the single character `r`,
as `re.sub(cls + '+', r, text)` does. -/
def collapseRuns (p : Char → Bool) (r : Char) : List Char → List Char
  | [] => []
  | [c] => if p c then [r] else [c]
  | c1 :: c2 :: cs =>
    if p c1 && p c2 then collapseRuns p r (c2 :: cs)
    else (if p c1 then r else c1) :: collapseRuns p r (c2 :: cs)

/-- Remove leading whitespace (the left half of `str.strip()`). -/
def lstrip : List Char → List Char
  | [] => []
  | c :: cs => if pyWs c then lstrip cs else c :: cs

/-- Remove trailing whitespace (the right half of `str.strip()`). -/
def rstrip : List Char → List Char
  | [] => []
  | c :: cs =>
    match rstrip cs with
    | [] => if pyWs c then [] else [c]
    | ds => c :: ds

/-- Python's `str.strip()`. -/
def stripWs (l : List Char) : List Char := rstrip (lstrip l)

/-- Python's `str.title()` on ASCII letters: a letter following a letter is
lowercased, a letter following a non-letter is uppercased. -/
def pyTitleGo : Bool → List Char → List Char
  | _, [] => []
  | prevAlpha, c :: cs =>
    if c.isAlpha then
      (if prevAlpha then c.toLower else c.toUpper) :: pyTitleGo true cs
    else c :: pyTitleGo false cs

/-- Python's `str.title()` (ASCII casing). -/
def pyTitle (cs : List Char) : List Char := pyTitleGo false cs

/-- One pass of `re.sub` with a literal-style matcher: scan left to right,
replace at most `count` non-overlapping matches, leave the rest unchanged.
`matchAt` returns the replacement text and the input remaining after the
match. -/
def subScan (matchAt : List Char → Option (List Char × List Char)) :
    ℕ → ℕ → List Char → List Char
  | 0, _, cs => cs
  | _, 0, cs => cs
  | fuel + 1, count + 1, cs =>
    match cs with
    | [] => []
    | c :: rest =>
      match matchAt cs with
      | some (rep, after) => rep ++ subScan matchAt fuel count after
      | none => c :: subScan matchAt fuel (count + 1) rest

/-! ### The statute-citation regex shared by 02/04/05

`Pasal\s+\d+(?:\s+Ayat\s*\(\d+\))?(?:\s+huruf\s+[a-zA-Z])?` (IGNORECASE). -/

/-- The optional group `(?:\s+Ayat\s*\(\d+\))?`: returns the rest of the
input after the group, or the input unchanged when the group does not
match. -/
def matchAyatOpt (cs : List Char) : List Char :=
  let w := cs.takeWhile pyWs
  if w.length = 0 then cs else
  match matchLitCi ['a', 'y', 'a', 't'] (cs.dropWhile pyWs) with
  | none => cs
  | some r =>
    match r.dropWhile pyWs with
    | '(' :: r3 =>
      let d := r3.takeWhile Char.isDigit
      if d.length = 0 then cs else
      match r3.dropWhile Char.isDigit with
      | ')' :: r4 => r4
      | _ => cs
    | _ => cs

/-- The optional group `(?:\s+huruf\s+[a-zA-Z])?`. -/
def matchHurufOpt (cs : List Char) : List Char :=
  let w := cs.takeWhile pyWs
  if w.length = 0 then cs else
  match matchLitCi ['h', 'u', 'r', 'u', 'f'] (cs.dropWhile pyWs) with
  | none => cs
  | some r =>
    let w2 := r.takeWhile pyWs
    if w2.length = 0 then cs else
    match r.dropWhile pyWs with
    | c :: r2 => if c.isAlpha then r2 else cs
    | [] => cs

/-- Match of one `Pasal N [Ayat (M)] [huruf x]` citation unit at the start of
the input; returns the remaining input on success. -/
def matchPasalUnit (cs : List Char) : Option (List Char) :=
  match matchLitCi ['p', 'a', 's', 'a', 'l'] cs with
  | none => none
  | some r1 =>
    let w := r1.takeWhile pyWs
    if w.length = 0 then none else
    let r2 := r1.dropWhile pyWs
    let d := r2.takeWhile Char.isDigit
    if d.length = 0 then none else
    some (matchHurufOpt (matchAyatOpt (r2.dropWhile Char.isDigit)))

/-- `pasal_pattern.findall(text)` of 04_predict.py / 05_evaluation.py: the
non-overlapping left-to-right matches of the citation-unit regex. The first
argument is recursion fuel (the input length suffices, since every match
consumes at least one character). -/
def findallPasal : ℕ → List Char → List (List Char)
  | 0, _ => []
  | _ + 1, [] => []
  | fuel + 1, c :: cs =>
    match matchPasalUnit (c :: cs) with
    | some rest =>
      ((c :: cs).take ((c :: cs).length - rest.length)) ::
        findallPasal fuel rest
    | none => findallPasal fuel cs

/-- Matcher of the cleanup substitution
`re.sub(r'Ayat\s*\(\s*(\d+)\s*\)', r'Ayat (\1)', p, 2)` used by
04_predict.py line 81 (note: the third positional argument makes
`re.IGNORECASE` a match count of 2, so the pattern is case sensitive). -/
def matchAyatSubAt (cs : List Char) : Option (List Char × List Char) :=
  match matchLit ['A', 'y', 'a', 't'] cs with
  | none => none
  | some r =>
    match r.dropWhile pyWs with
    | '(' :: r2 =>
      let r3 := r2.dropWhile pyWs
      let d := r3.takeWhile Char.isDigit
      if d.length = 0 then none else
      match (r3.dropWhile Char.isDigit).dropWhile pyWs with
      | ')' :: r5 => some (['A', 'y', 'a', 't', ' ', '('] ++ d ++ [')'], r5)
      | _ => none
    | _ => none

/-- `re.sub(r'Ayat\s*\(\s*(\d+)\s*\)', r'Ayat (\1)', p, 2)`. -/
def ayatSub (cs : List Char) : List Char := subScan matchAyatSubAt cs.length 2 cs

/-- Matcher of `re.sub(r'huruf\s*([a-zA-Z])', r'huruf \1', p, 2)` (again with
`re.IGNORECASE` actually passed as a count of 2, hence case sensitive). -/
def matchHurufSubAt (cs : List Char) : Option (List Char × List Char) :=
  match matchLit ['h', 'u', 'r', 'u', 'f'] cs with
  | none => none
  | some r =>
    match r.dropWhile pyWs with
    | c :: r2 =>
      if c.isAlpha then some (['h', 'u', 'r', 'u', 'f', ' ', c], r2) else none
    | [] => none

/-- `re.sub(r'huruf\s*([a-zA-Z])', r'huruf \1', p, 2)`. -/
def hurufSub (cs : List Char) : List Char := subScan matchHurufSubAt cs.length 2 cs

namespace Predict

/-- The per-match cleanup of `extract_pasals` in 04_predict.py (lines 79-83):
collapse whitespace, strip, apply the `Ayat` spacing substitution, apply the
`huruf` spacing substitution, then title-case. -/
def clean (p : List Char) : List Char :=
  pyTitle (hurufSub (ayatSub (stripWs (collapseRuns pyWs ' ' p))))

/-- `extract_pasals` of 04_predict.py (lines 68-84): find all citation units,
clean each, deduplicate preserving first occurrence
(`list(dict.fromkeys(...))`). A `None` argument becomes `""` via
`text or ""`. -/
def extract_pasals (text : String) : List String :=
  dedupFirst ((findallPasal text.data.length text.data).map
    (fun l => String.mk (clean l)))

end Predict

namespace Evaluation

/-- The per-match cleanup of `extract_pasals` in 05_evaluation.py (lines
93-97). It differs from 04_predict.py in one way: the result of the `Ayat`
spacing substitution on line 95 is discarded (the call's value is not
assigned back to `p`), so that substitution has no effect here. -/
def clean (p : List Char) : List Char :=
  pyTitle (hurufSub (stripWs (collapseRuns pyWs ' ' p)))

/-- `extract_pasals` of 05_evaluation.py (lines 78-98): empty and `"N/A"`
inputs return `[]`; otherwise find all citation units, clean each,
deduplicate preserving first occurrence. -/
def extract_pasals (text : String) : List String :=
  if text = "" ∨ text = "N/A" then [] else
  dedupFirst ((findallPasal text.data.length text.data).map
    (fun l => String.mk (clean l)))

end Evaluation

/-! ### 02_case_representation.py: extract_pasal (the three PASAL_PATTERNS) -/

/-- The class `[\s\.\,\;]` used between compound-citation units. -/
def isClsChar (c : Char) : Bool := pyWs c || c = '.' || c = ',' || c = ';'

/-- One iteration of the compound-citation continuation
`(?:[\s\.\,\;]*(?:jo\.?|juncto|dan|atau|serta)?\s*Pasal\s+\d+...)`:
separator characters, an optional connector word, optional whitespace, and
another citation unit. Returns the remaining input, or `none` when the
iteration does not match (at most one connector alternative can apply at a
given position, so the regex alternation is deterministic). -/
def compoundIter (cs : List Char) : Option (List Char) :=
  let r0 := cs.dropWhile isClsChar
  let unitFrom : List Char → Option (List Char) :=
    fun r => matchPasalUnit (r.dropWhile pyWs)
  match matchLitCi ['j', 'o'] r0 with
  | some r1 =>
    -- `jo\.?` is greedy on the dot, then falls back, then no-connector
    (match r1 with
     | '.' :: r2 =>
       (unitFrom r2).orElse (fun _ => (unitFrom r1).orElse (fun _ => unitFrom r0))
     | _ => (unitFrom r1).orElse (fun _ => unitFrom r0))
  | none =>
    match matchLitCi ['j', 'u', 'n', 'c', 't', 'o'] r0 with
    | some r1 => (unitFrom r1).orElse (fun _ => unitFrom r0)
    | none =>
      match matchLitCi ['d', 'a', 'n'] r0 with
      | some r1 => (unitFrom r1).orElse (fun _ => unitFrom r0)
      | none =>
        match matchLitCi ['a', 't', 'a', 'u'] r0 with
        | some r1 => (unitFrom r1).orElse (fun _ => unitFrom r0)
        | none =>
          match matchLitCi ['s', 'e', 'r', 't', 'a'] r0 with
          | some r1 => (unitFrom r1).orElse (fun _ => unitFrom r0)
          | none => unitFrom r0

/-- The greedy Kleene star over `compoundIter` (nothing follows the star in
the patterns, so no backtracking across iterations occurs). -/
def compoundStar : ℕ → List Char → List Char
  | 0, cs => cs
  | fuel + 1, cs =>
    match compoundIter cs with
    | some rest => compoundStar fuel rest
    | none => cs

/-- Match of a full compound citation (the captured group shared by all
three PASAL_PATTERNS): one unit followed by the continuation star. -/
def matchCompound (cs : List Char) : Option (List Char) :=
  (matchPasalUnit cs).map (fun r => compoundStar r.length r)

/-- Case-insensitive phrase match: words joined by `\s+`. -/
def matchPhraseCi : List (List Char) → List Char → Option (List Char)
  | [], cs => some cs
  | [w], cs => matchLitCi w cs
  | w :: ws, cs =>
    match matchLitCi w cs with
    | none => none
    | some r =>
      if (r.takeWhile pyWs).length = 0 then none
      else matchPhraseCi ws (r.dropWhile pyWs)

/-- The optional trailer `(?:\s+Undang-Undang\s+Nomor\s+\d+)?`. -/
def matchUUOpt (cs : List Char) : List Char :=
  if (cs.takeWhile pyWs).length = 0 then cs else
  match matchLitCi ['u', 'n', 'd', 'a', 'n', 'g', '-', 'u', 'n', 'd', 'a', 'n', 'g']
      (cs.dropWhile pyWs) with
  | none => cs
  | some r =>
    if (r.takeWhile pyWs).length = 0 then cs else
    match matchLitCi ['n', 'o', 'm', 'o', 'r'] (r.dropWhile pyWs) with
    | none => cs
    | some r2 =>
      if (r2.takeWhile pyWs).length = 0 then cs else
      let r3 := r2.dropWhile pyWs
      if (r3.takeWhile Char.isDigit).length = 0 then cs
      else r3.dropWhile Char.isDigit

/-- Try an ordered list of case-insensitive phrase alternatives (the
alternatives of each pattern are pairwise prefix-disjoint, so at most one
can match at a position). -/
def matchAltPhrases : List (List (List Char)) → List Char → Option (List Char)
  | [], _ => none
  | ph :: rest, cs =>
    match matchPhraseCi ph cs with
    | some r => some r
    | none => matchAltPhrases rest cs

/-- The lazy `.*?` filler (with DOTALL): scan forward one character at a
time for the first position where `f` succeeds. -/
def lazyFind (f : List Char → Option (List Char × List Char)) :
    ℕ → List Char → Option (List Char × List Char)
  | 0, _ => none
  | fuel + 1, cs =>
    match f cs with
    | some x => some x
    | none =>
      match cs with
      | [] => none
      | _ :: cs' => lazyFind f fuel cs'

/-- The context-plus-capture tail of PASAL_PATTERNS[0]:
`(?:sebagaimana\s+diatur\s+dalam|melanggar|berdasarkan)\s+(COMPOUND)` with
the optional `Undang-Undang` trailer. Returns the captured compound text
and the remaining input after the whole match. -/
def matchCtxCompound (cs : List Char) : Option (List Char × List Char) :=
  match matchAltPhrases
      [[['s','e','b','a','g','a','i','m','a','n','a'], ['d','i','a','t','u','r'],
        ['d','a','l','a','m']],
       [['m','e','l','a','n','g','g','a','r']],
       [['b','e','r','d','a','s','a','r','k','a','n']]] cs with
  | none => none
  | some r =>
    if (r.takeWhile pyWs).length = 0 then none else
    let r2 := r.dropWhile pyWs
    match matchCompound r2 with
    | none => none
    | some rest => some (r2.take (r2.length - rest.length), matchUUOpt rest)

/-- The capture tail of PASAL_PATTERNS[1]: the compound citation itself with
the optional `Undang-Undang` trailer. -/
def matchBareCompound (cs : List Char) : Option (List Char × List Char) :=
  match matchCompound cs with
  | none => none
  | some rest => some (cs.take (cs.length - rest.length), matchUUOpt rest)

/-- A match of PASAL_PATTERNS[0] starting at the current position:
`(?:terbukti|bersalah|melakukan\s+tindak\s+pidana|dihukum)\s+.*?` followed
by the context-plus-capture tail. -/
def matchP1At (cs : List Char) : Option (List Char × List Char) :=
  match matchAltPhrases
      [[['t','e','r','b','u','k','t','i']],
       [['b','e','r','s','a','l','a','h']],
       [['m','e','l','a','k','u','k','a','n'], ['t','i','n','d','a','k'],
        ['p','i','d','a','n','a']],
       [['d','i','h','u','k','u','m']]] cs with
  | none => none
  | some r =>
    if (r.takeWhile pyWs).length = 0 then none else
    let r2 := r.dropWhile pyWs
    lazyFind matchCtxCompound (r2.length + 1) r2

/-- A match of PASAL_PATTERNS[1] starting at the current position:
`(?:menyatakan|memutuskan|menimbang|mengadili|berdasarkan)\s+.*?` followed
by the captured compound. -/
def matchP2At (cs : List Char) : Option (List Char × List Char) :=
  match matchAltPhrases
      [[['m','e','n','y','a','t','a','k','a','n']],
       [['m','e','m','u','t','u','s','k','a','n']],
       [['m','e','n','i','m','b','a','n','g']],
       [['m','e','n','g','a','d','i','l','i']],
       [['b','e','r','d','a','s','a','r','k','a','n']]] cs with
  | none => none
  | some r =>
    if (r.takeWhile pyWs).length = 0 then none else
    let r2 := r.dropWhile pyWs
    lazyFind matchBareCompound (r2.length + 1) r2

/-- `finditer` for a pattern with one capture group: left-to-right
non-overlapping scan, collecting the captured texts. -/
def finditerCap (matchAt : List Char → Option (List Char × List Char)) :
    ℕ → List Char → List (List Char)
  | 0, _ => []
  | _ + 1, [] => []
  | fuel + 1, c :: cs =>
    match matchAt (c :: cs) with
    | some (cap, rest) => cap :: finditerCap matchAt fuel rest
    | none => finditerCap matchAt fuel cs

/-- `finditer` for PASAL_PATTERNS[2] (the bare compound citation, where the
capture is the whole match). -/
def finditerCompound : ℕ → List Char → List (List Char)
  | 0, _ => []
  | _ + 1, [] => []
  | fuel + 1, c :: cs =>
    match matchCompound (c :: cs) with
    | some rest =>
      ((c :: cs).take ((c :: cs).length - rest.length)) ::
        finditerCompound fuel rest
    | none => finditerCompound fuel cs

/-- Python's `str.replace(needle, rep)`: replace all non-overlapping
occurrences left to right (case sensitive). -/
def replaceAll (needle rep : List Char) : ℕ → List Char → List Char
  | 0, cs => cs
  | _ + 1, [] => []
  | fuel + 1, c :: cs =>
    match matchLit needle (c :: cs) with
    | some rest => rep ++ replaceAll needle rep fuel rest
    | none => c :: replaceAll needle rep fuel cs

/-- `re.split(r'\s+(?:jo|dan)\s+', text, flags=re.IGNORECASE)`: split on a
whitespace-delimited connector word. `acc` holds the current piece in
reverse. -/
def splitJoDan : ℕ → List Char → List Char → List (List Char)
  | 0, acc, cs => [acc.reverse ++ cs]
  | _ + 1, acc, [] => [acc.reverse]
  | fuel + 1, acc, c :: cs =>
    if pyWs c then
      let r := (c :: cs).dropWhile pyWs
      let afterSep : Option (List Char) :=
        match matchLitCi ['j', 'o'] r with
        | some r2 =>
          if (r2.takeWhile pyWs).length = 0 then none
          else some (r2.dropWhile pyWs)
        | none =>
          match matchLitCi ['d', 'a', 'n'] r with
          | some r2 =>
            if (r2.takeWhile pyWs).length = 0 then none
            else some (r2.dropWhile pyWs)
          | none => none
      match afterSep with
      | some rest => acc.reverse :: splitJoDan fuel [] rest
      | none => splitJoDan fuel (c :: acc) cs
    else splitJoDan fuel (c :: acc) cs

/-- Whether a character list starts with a digit (the `\d+` tail of the
validity check). -/
def headIsDigit : List Char → Bool
  | [] => false
  | d :: _ => d.isDigit

/-- The validity check `re.search(r'Pasal\s+\d+', p, re.IGNORECASE)` applied
to a split piece, as a scanner. -/
def pasalKwAt (cs : List Char) : Bool :=
  match matchLitCi ['p', 'a', 's', 'a', 'l'] cs with
  | none => false
  | some r =>
    if (r.takeWhile pyWs).length = 0 then false
    else headIsDigit (r.dropWhile pyWs)

/-- Scan for `Pasal\s+\d+` anywhere in the text. -/
def containsPasalNum : ℕ → List Char → Bool
  | 0, _ => false
  | _ + 1, [] => false
  | fuel + 1, c :: cs => pasalKwAt (c :: cs) || containsPasalNum fuel cs

/-- Lexicographic comparison of character lists by code point, i.e. Python's
`<` on strings. -/
def charListLt : List Char → List Char → Bool
  | [], [] => false
  | [], _ :: _ => true
  | _ :: _, [] => false
  | a :: as, b :: bs => if a < b then true else if b < a then false else charListLt as bs

/-- Python's `<=` on strings, used to model `sorted`. -/
def strLeB (s t : String) : Bool := !(charListLt t.data s.data)

/-- The per-match processing of `extract_pasal`
(02_case_representation.py lines 239-246): strip, collapse whitespace, the
two spacing substitutions (with their `re.IGNORECASE`-as-count quirk), and
the connector replacements. -/
def pasalMatchClean (m : List Char) : List Char :=
  let t := hurufSub (ayatSub (collapseRuns pyWs ' ' (stripWs m)))
  let t := replaceAll ['j', 'o', '.'] ['j', 'o'] t.length t
  let t := replaceAll ['j', 'u', 'n', 'c', 't', 'o'] ['j', 'o'] t.length t
  let t := replaceAll ['s', 'e', 'r', 't', 'a'] ['d', 'a', 'n'] t.length t
  replaceAll ['a', 't', 'a', 'u'] ['d', 'a', 'n'] t.length t

/-- The accepted, title-cased sub-citations of one pattern match
(02_case_representation.py lines 246-252): split on connectors, strip each
piece, keep it when it contains `Pasal\s+\d+` (case-insensitively) and has
5-150 characters. -/
def pasalPieces (m : List Char) : List (List Char) :=
  let t := pasalMatchClean m
  (splitJoDan t.length [] t).filterMap (fun piece =>
    let p := stripWs piece
    if containsPasalNum p.length p && decide (5 ≤ p.length) && decide (p.length ≤ 150)
    then some (pyTitle p) else none)

/-- `extract_pasal` (02_case_representation.py lines 232-254): run the three
PASAL_PATTERNS over the whole text, split and validate every match, collect
the results into a set and return them sorted alphabetically. -/
def extract_pasal (text : String) : List String :=
  let cs := text.data
  let ms := finditerCap matchP1At cs.length cs ++
    finditerCap matchP2At cs.length cs ++ finditerCompound cs.length cs
  sortBy strLeB (dedupFirst ((ms.flatMap pasalPieces).map String.mk))

/-- Pointwise relation between a character and its title-cased image: equal
lowercase form, equal digit-ness and equal whitespace-ness — everything the
`Pasal\s+\d+` validity scanner inspects. -/
def caseEq (c d : Char) : Prop :=
  d.toLower = c.toLower ∧ d.isDigit = c.isDigit ∧ pyWs d = pyWs c

/-! ### 02_case_representation.py: extract_tanggal (the five DATE_PATTERNS) -/

/-- Python's `\w` on ASCII: letters, digits and the underscore. -/
def isWordChar (c : Char) : Bool := c.isAlpha || c.isDigit || c = '_'

/-- Whether `l` starts with `kw` (character-exact). -/
def startsWithL : List Char → List Char → Bool
  | [], _ => true
  | _ :: _, [] => false
  | k :: ks, c :: cs => k = c && startsWithL ks cs

/-- Python's `kw in l` substring test. -/
def containsSub (kw : List Char) : List Char → Bool
  | [] => startsWithL kw []
  | c :: cs => startsWithL kw (c :: cs) || containsSub kw cs

/-- The identity/birthdate context keywords of `extract_tanggal`
(02_case_representation.py line 181). -/
def kwList : List (List Char) :=
  [['l', 'a', 'h', 'i', 'r'], ['u', 's', 'i', 'a'], ['u', 'm', 'u', 'r'],
   ['k', 't', 'p'], ['i', 'd', 'e', 'n', 't', 'i', 't', 'a', 's'],
   ['a', 'k', 't', 'a'], ['i', 'j', 'a', 'z', 'a', 'h']]

/-- Whether a context window contains one of the identity keywords. -/
def hasIdentityKw (ctx : List Char) : Bool := kwList.any (fun kw => containsSub kw ctx)

/-- The lowercased context window `search_area[max(0,start-150):min(len,end+150)]`
around a match at position `i` of length `len`. -/
def ctxWindow (sa : List Char) (i len : ℕ) : List Char :=
  ((sa.take (min sa.length (i + len + 150))).drop (i - 150)).map Char.toLower

/-- `BULAN_MAP` (02_case_representation.py lines 134-138). -/
def BULAN_MAP : List (List Char × String) :=
  [(['j', 'a', 'n', 'u', 'a', 'r', 'i'], "01"),
   (['f', 'e', 'b', 'r', 'u', 'a', 'r', 'i'], "02"),
   (['m', 'a', 'r', 'e', 't'], "03"),
   (['a', 'p', 'r', 'i', 'l'], "04"),
   (['m', 'e', 'i'], "05"),
   (['j', 'u', 'n', 'i'], "06"),
   (['j', 'u', 'l', 'i'], "07"),
   (['a', 'g', 'u', 's', 't', 'u', 's'], "08"),
   (['s', 'e', 'p', 't', 'e', 'm', 'b', 'e', 'r'], "09"),
   (['o', 'k', 't', 'o', 'b', 'e', 'r'], "10"),
   (['n', 'o', 'v', 'e', 'm', 'b', 'e', 'r'], "11"),
   (['d', 'e', 's', 'e', 'm', 'b', 'e', 'r'], "12")]

/-- Dictionary lookup in `BULAN_MAP`. -/
def lookupBulan (k : List Char) : List (List Char × String) → Option String
  | [] => none
  | (key, v) :: rest => if k = key then some v else lookupBulan k rest

/-- Python's `int()` on a string of ASCII digits. -/
def digitsToNat (l : List Char) : ℕ := l.foldl (fun n c => 10 * n + (c.toNat - 48)) 0

/-- Python's `f"{n:02d}"` for a natural number. -/
def pad2 (n : ℕ) : String := if n < 10 then "0" ++ toString n else toString n

/-- Match `\d{4}`: exactly four digits, captured. -/
def matchD4 (cs : List Char) : Option (List Char × List Char) :=
  match cs with
  | a :: b :: c :: d :: rest =>
    if a.isDigit && b.isDigit && c.isDigit && d.isDigit then some ([a, b, c, d], rest)
    else none
  | _ => none

/-- Match `(\d{1,2})` with regex backtracking: the two-digit reading is tried
first and the one-digit reading is the fallback when the continuation `k`
fails. -/
def tryD12 (cs : List Char) (k : List Char → List Char → Option α) : Option α :=
  match cs with
  | [] => none
  | [d1] => if d1.isDigit then k [d1] [] else none
  | d1 :: d2 :: rest =>
    if d1.isDigit then
      if d2.isDigit then (k [d1, d2] rest).orElse (fun _ => k [d1] (d2 :: rest))
      else k [d1] (d2 :: rest)
    else none

/-- Match `\s+` and continue (whitespace cannot start the following token in
any of the DATE_PATTERNS, so the greedy run is deterministic). -/
def wsPlus (cs : List Char) (k : List Char → Option α) : Option α :=
  if (cs.takeWhile pyWs).length = 0 then none else k (cs.dropWhile pyWs)

/-- Match the separator class `[\/\-]`. -/
def matchSep (cs : List Char) (k : List Char → Option α) : Option α :=
  match cs with
  | c :: rest => if c = '/' || c = '-' then k rest else none
  | [] => none

/-- Match `(\w+)` (always followed by `\s+` in the DATE_PATTERNS, so the
greedy run is deterministic), passing the captured word to `k`. -/
def wordPlus (cs : List Char) (k : List Char → List Char → Option α) : Option α :=
  let w := cs.takeWhile isWordChar
  if w.length = 0 then none else k w (cs.dropWhile isWordChar)

/-- The month-name alternation of DATE_PATTERNS[0], case-insensitively,
capturing the original text. -/
def monthNames : List (List Char) :=
  (BULAN_MAP.map Prod.fst)

/-- Try an ordered list of case-insensitive literal alternatives (pairwise
prefix-disjoint in all uses), capturing the matched input text. -/
def matchAltCapture : List (List Char) → List Char → Option (List Char × List Char)
  | [], _ => none
  | n :: ns, cs =>
    match matchLitCi n cs with
    | some r => some (cs.take n.length, r)
    | none => matchAltCapture ns cs

/-- DATE_PATTERNS[0]:
`(\d{1,2})\s+(Januari|...|Desember)\s+(\d{4})`, case-insensitive. -/
def matchDate1 (cs : List Char) : Option ((List Char × List Char × List Char) × List Char) :=
  tryD12 cs (fun day r1 =>
    wsPlus r1 (fun r2 =>
      match matchAltCapture monthNames r2 with
      | none => none
      | some (mon, r3) =>
        wsPlus r3 (fun r4 =>
          match matchD4 r4 with
          | none => none
          | some (yr, r5) => some ((day, mon, yr), r5))))

/-- DATE_PATTERNS[1]: `(\d{1,2})[\/\-](\d{1,2})[\/\-](\d{4})`. -/
def matchDate2 (cs : List Char) : Option ((List Char × List Char × List Char) × List Char) :=
  tryD12 cs (fun day r1 =>
    matchSep r1 (fun r2 =>
      tryD12 r2 (fun mon r3 =>
        matchSep r3 (fun r4 =>
          match matchD4 r4 with
          | some (yr, r5) => some ((day, mon, yr), r5)
          | none => none))))

/-- DATE_PATTERNS[2]: `(\d{4})[\/\-](\d{1,2})[\/\-](\d{1,2})`. The groups are
returned in capture order; `extract_tanggal` assigns them to day, month and
year in that same (mixed-up) order, exactly as the code does. -/
def matchDate3 (cs : List Char) : Option ((List Char × List Char × List Char) × List Char) :=
  match matchD4 cs with
  | none => none
  | some (g1, r1) =>
    matchSep r1 (fun r2 =>
      tryD12 r2 (fun g2 r3 =>
        matchSep r3 (fun r4 =>
          tryD12 r4 (fun g3 r5 => some ((g1, g2, g3), r5)))))

/-- DATE_PATTERNS[3]: `tanggal\s+(\d{1,2})\s+(\w+)\s+(\d{4})`, case-insensitive. -/
def matchDate4 (cs : List Char) : Option ((List Char × List Char × List Char) × List Char) :=
  match matchLitCi ['t', 'a', 'n', 'g', 'g', 'a', 'l'] cs with
  | none => none
  | some r1 =>
    wsPlus r1 (fun r2 =>
      tryD12 r2 (fun day r3 =>
        wsPlus r3 (fun r4 =>
          wordPlus r4 (fun mon r5 =>
            wsPlus r5 (fun r6 =>
              match matchD4 r6 with
              | some (yr, r7) => some ((day, mon, yr), r7)
              | none => none)))))

/-- DATE_PATTERNS[4]:
`pada\s+hari\s+\w+\s+tanggal\s+(\d{1,2})\s+(\w+)\s+(\d{4})`, case-insensitive. -/
def matchDate5 (cs : List Char) : Option ((List Char × List Char × List Char) × List Char) :=
  match matchLitCi ['p', 'a', 'd', 'a'] cs with
  | none => none
  | some r1 =>
    wsPlus r1 (fun r2 =>
      match matchLitCi ['h', 'a', 'r', 'i'] r2 with
      | none => none
      | some r3 =>
        wsPlus r3 (fun r4 =>
          wordPlus r4 (fun _ r5 =>
            wsPlus r5 (fun r6 =>
              match matchLitCi ['t', 'a', 'n', 'g', 'g', 'a', 'l'] r6 with
              | none => none
              | some r7 =>
                wsPlus r7 (fun r8 =>
                  tryD12 r8 (fun day r9 =>
                    wsPlus r9 (fun r10 =>
                      wordPlus r10 (fun mon r11 =>
                        wsPlus r11 (fun r12 =>
                          match matchD4 r12 with
                          | some (yr, r13) => some ((day, mon, yr), r13)
                          | none => none)))))))))

/-- `finditer` with positions: scan left to right, record each
non-overlapping match as (start position, captured groups, match length),
resuming after the end of a match. -/
def finditerP (matchAt : List Char → Option (α × List Char)) :
    ℕ → ℕ → List Char → List (ℕ × α × ℕ)
  | 0, _, _ => []
  | _ + 1, _, [] => []
  | fuel + 1, i, c :: cs =>
    match matchAt (c :: cs) with
    | some (a, rest) =>
      let len := (c :: cs).length - rest.length
      (i, a, len) :: finditerP matchAt fuel (i + len) rest
    | none => finditerP matchAt fuel (i + 1) cs

/-- All date-pattern matches over the search area, in the pattern order and
position order in which `extract_tanggal` iterates them. -/
def tanggalCandidates (sa : List Char) : List (ℕ × (List Char × List Char × List Char) × ℕ) :=
  finditerP matchDate1 sa.length 0 sa ++ finditerP matchDate2 sa.length 0 sa ++
    finditerP matchDate3 sa.length 0 sa ++ finditerP matchDate4 sa.length 0 sa ++
    finditerP matchDate5 sa.length 0 sa

/-- The range-and-format validation of `extract_tanggal`
(02_case_representation.py lines 199-206). -/
def validateDate (day yr : List Char) (month_str : String) (cy : ℕ) : Option String :=
  let day_num := digitsToNat day
  let year_num := digitsToNat yr
  let month_num := digitsToNat month_str.data
  if 1 ≤ day_num ∧ day_num ≤ 31 ∧ 1 ≤ month_num ∧ month_num ≤ 12 ∧
      1990 ≤ year_num ∧ year_num ≤ cy + 5 then
    some (toString year_num ++ "-" ++ month_str ++ "-" ++ pad2 day_num)
  else none

/-- Processing of one date-pattern match (02_case_representation.py lines
177-206): reject when the context window holds an identity keyword, resolve
the month through `BULAN_MAP` or as a number, then validate the ranges. -/
def tryCandidate (cy : ℕ) (sa : List Char)
    (cand : ℕ × (List Char × List Char × List Char) × ℕ) : Option String :=
  match cand with
  | (i, (day, mon, yr), len) =>
    if hasIdentityKw (ctxWindow sa i len) then none
    else
      match lookupBulan (mon.map Char.toLower) BULAN_MAP with
      | some month_str => validateDate day yr month_str cy
      | none =>
        if !mon.isEmpty && mon.all Char.isDigit &&
            decide (1 ≤ digitsToNat mon) && decide (digitsToNat mon ≤ 12) then
          validateDate day yr (pad2 (digitsToNat mon)) cy
        else none

/-- First successful application of `f` along a list (the early `return` of
the candidate loop). -/
def firstSome (f : α → Option β) : List α → Option β
  | [] => none
  | a :: as =>
    match f a with
    | some b => some b
    | none => firstSome f as

/-- `extract_tanggal` (02_case_representation.py lines 170-208): scan the
first 8000 characters with the five DATE_PATTERNS and return the first
match that survives the context filter and the range validation, formatted
as zero-padded ISO `YYYY-MM-DD`; `""` when no match survives. The current
year of `datetime.now()` is the parameter `cy`. -/
def extract_tanggal (cy : ℕ) (text : String) : String :=
  let sa := text.data.take 8000
  match firstSome (tryCandidate cy sa) (tanggalCandidates sa) with
  | some s => s
  | none => ""

/-! ### 02_case_representation.py: clean_text -/

/-- The class `[\r\n]` of `clean_text`'s newline-collapsing substitution. -/
def isNl (c : Char) : Bool := c = '\r' || c = '\n'

/-- The class `[ \t]` of `clean_text`'s space-collapsing substitution. -/
def isSpTab (c : Char) : Bool := c = ' ' || c = '\t'

/-- `text.replace('\x00', ' ').replace('\xa0', ' ')`
(02_case_representation.py line 145). -/
def replNull (cs : List Char) : List Char :=
  cs.map (fun c => if c = '\x00' ∨ c = '\xa0' then ' ' else c)

/-- The scanner implementing `re.sub(r'\s*\(\s*', '(', text)` and its `)`
variant (02_case_representation.py lines 148-149). A whitespace run is
buffered in `buf`; when the next non-whitespace character is the
parenthesis, the run belongs to the match's leading `\s*` and is dropped,
otherwise it is flushed unchanged. `afterP` means a parenthesis was just
emitted and its trailing `\s*` is still consuming whitespace. -/
def pwsGo (paren : Char) : Bool → List Char → List Char → List Char
  | afterP, buf, [] => if afterP then [] else buf
  | afterP, buf, c :: cs =>
    if pyWs c then
      (if afterP then pwsGo paren true [] cs
       else pwsGo paren false (buf ++ [c]) cs)
    else if c = paren then paren :: pwsGo paren true [] cs
    else (if afterP then [] else buf) ++ c :: pwsGo paren false [] cs

/-- `re.sub(r'\s*' + paren + r'\s*', paren, text)` for a parenthesis. -/
def parenWsSub (paren : Char) (cs : List Char) : List Char :=
  pwsGo paren false [] cs

/-- Adjacency soundness: no two adjacent characters form a `bad` pair. -/
def adjOk (bad : Char → Char → Bool) : List Char → Bool
  | [] => true
  | [_] => true
  | c1 :: c2 :: cs => !(bad c1 c2) && adjOk bad (c2 :: cs)

/-- Two adjacent characters both in class `p` (a `p+` run that a
run-collapsing substitution would still shrink). -/
def badPair (p : Char → Bool) (a b : Char) : Bool := p a && p b

/-- A whitespace character adjacent to the parenthesis on either side (what
`re.sub(r'\s*' + paren + r'\s*', paren, ...)` removes). -/
def badParen (paren : Char) (a b : Char) : Bool :=
  (pyWs a && decide (b = paren)) || (decide (a = paren) && pyWs b)

/-- Every `p`-character of the list equals `r`. -/
def charsOk (p : Char → Bool) (r : Char) (l : List Char) : Bool :=
  l.all (fun c => !(p c) || decide (c = r))

/-- The character `c0` does not occur. -/
def noChar (c0 : Char) (l : List Char) : Bool := l.all (fun c => !decide (c = c0))

/-- The head, if any, is not whitespace. -/
def headOkB : List Char → Bool
  | [] => true
  | c :: _ => !pyWs c

/-- The last character, if any, is not whitespace. -/
def lastOkB : List Char → Bool
  | [] => true
  | [c] => !pyWs c
  | _ :: c :: cs => lastOkB (c :: cs)

/-- The first non-whitespace character, if any, is not the parenthesis. -/
def fnwOk (paren : Char) : List Char → Bool
  | [] => true
  | c :: cs => if pyWs c then fnwOk paren cs else decide (c ≠ paren)

/-- The character-level pipeline of `clean_text`
(02_case_representation.py lines 145-150): null/nbsp replacement, newline
collapsing, space collapsing, whitespace removal around `(` and `)`, and a
final strip. -/
def cleanChars (cs : List Char) : List Char :=
  stripWs (parenWsSub ')' (parenWsSub '('
    (collapseRuns isSpTab ' ' (collapseRuns isNl '\n' (replNull cs)))))

/-- `clean_text` (02_case_representation.py lines 140-150); the `if not
text` guard returns `""` for empty input. -/
def clean_text (text : String) : String :=
  if text = "" then "" else String.mk (cleanChars text.data)

/-! ### 02_case_representation.py: extract_metadata -/

/-- The per-field extractors of `ImprovedSmartExtractor` whose regex
batteries are not modelled here (`extract_nomor_perkara`,
`extract_jenis_perkara`, `extract_personal_data`, `extract_status_hukuman`,
`extract_ringkasan_fakta`); `extract_metadata` is stated parametrically in
them, so the theorems below hold for any behaviour of these five. -/
structure FieldExtractors where
  nomor_perkara : String → String
  jenis_perkara : String → String
  personal_data : String → String → String
  status_hukuman : String → String
  ringkasan_fakta : String → String

/-- `extract_metadata` (02_case_representation.py lines 470-495): empty
input short-circuits to the empty dict `{}`; otherwise the text is cleaned
and an 11-field dict is built (modelled, like every Python dict here, as an
insertion-ordered association list). -/
def extract_metadata (fx : FieldExtractors) (cy : ℕ) (text : String) :
    List (String × String) :=
  if text = "" then []
  else
    let t := clean_text text
    [("no_perkara", fx.nomor_perkara t),
     ("tanggal", extract_tanggal cy t),
     ("jenis_perkara", fx.jenis_perkara t),
     ("pasal", String.intercalate "; " (extract_pasal t)),
     ("nama", fx.personal_data t "nama"),
     ("umur", fx.personal_data t "umur"),
     ("jenis_kelamin", fx.personal_data t "jenis_kelamin"),
     ("pekerjaan", fx.personal_data t "pekerjaan"),
     ("alamat", fx.personal_data t "alamat"),
     ("status_hukuman", fx.status_hukuman t),
     ("ringkasan_fakta", fx.ringkasan_fakta t)]

/-- The record the specification's words describe for empty input: all
eleven fields present, each mapped to the empty string. Written from the
spec (not the source) for comparison with `extract_metadata`. -/
def emptyFieldRecord : List (String × String) :=
  [("no_perkara", ""), ("tanggal", ""), ("jenis_perkara", ""), ("pasal", ""),
   ("nama", ""), ("umur", ""), ("jenis_kelamin", ""), ("pekerjaan", ""),
   ("alamat", ""), ("status_hukuman", ""), ("ringkasan_fakta", "")]

/-- Field extractors that always return the empty string, used to
instantiate the parametric `extract_metadata` at a concrete point. -/
def trivialExtractors : FieldExtractors :=
  ⟨fun _ => "", fun _ => "", fun _ _ => "", fun _ => "", fun _ => ""⟩

/-! ### 04_predict.py: weighted majority vote -/

/-- A case record as consumed by `weighted_majority_vote`; only the `pasal`
field (`case.get("pasal", "")`) is read. -/
structure Case where
  pasal : String
deriving DecidableEq

/-- `USE_PREDICTION_THRESHOLD` (04_predict.py line 18). -/
def USE_PREDICTION_THRESHOLD : Bool := false

/-- `PREDICTION_SCORE_THRESHOLD` (04_predict.py line 20). -/
def PREDICTION_SCORE_THRESHOLD : ℚ := 1/2

/-- `TOP_N_PREDICTED_PASALS` (04_predict.py line 22). -/
def TOP_N_PREDICTED_PASALS : ℕ := 10

/-- The `pasal_weighted_scores` dict built by `weighted_majority_vote`
(04_predict.py lines 99-111): for every (case, score) pair, each statute
extracted from the case's `pasal` field accumulates that case's score. -/
def pasal_weighted_scores (cases_with_scores : List (Case × ℚ)) :
    List (String × ℚ) :=
  cases_with_scores.foldl
    (fun d p =>
      (Predict.extract_pasals p.1.pasal).foldl
        (fun d pasal => dictAdd d pasal p.2) d)
    []

/-- `weighted_majority_vote` (04_predict.py lines 86-137): rank statutes by
accumulated weight (descending, stable), select by threshold or top-N
according to the module configuration, join with `"; "`, with `"N/A"` for an
empty outcome. -/
def weighted_majority_vote (cases_with_scores : List (Case × ℚ)) : String :=
  let d := pasal_weighted_scores cases_with_scores
  if d = [] then "N/A" else
  let sorted_pasals := (sortBy hybridLe d.enum).map Prod.snd
  let predicted_pasals_final :=
    if USE_PREDICTION_THRESHOLD then
      (sorted_pasals.filter
        (fun p => decide (PREDICTION_SCORE_THRESHOLD ≤ p.2))).map Prod.fst
    else (sorted_pasals.take TOP_N_PREDICTED_PASALS).map Prod.fst
  if predicted_pasals_final = [] then "N/A"
  else String.intercalate "; " predicted_pasals_final

end UAS

namespace UAS

/-! ### Generic lemmas about `insertLe`, `sortBy`, `dedupFirst` -/

theorem insertLe_perm (le : α → α → Bool) (a : α) (l : List α) :
    List.Perm (insertLe le a l) (a :: l) := by
  induction l with
  | nil => simp [insertLe]
  | cons b bs ih =>
    by_cases h : le a b
    · simp [insertLe, h]
    · simp only [insertLe, h, if_neg, Bool.not_eq_true]
      exact (ih.cons b).trans (List.Perm.swap a b bs)

theorem sortBy_perm (le : α → α → Bool) (l : List α) :
    List.Perm (sortBy le l) l := by
  induction l with
  | nil => simp [sortBy]
  | cons a as ih => exact (insertLe_perm le a (sortBy le as)).trans (ih.cons a)

theorem mem_insertLe {le : α → α → Bool} {a x : α} {l : List α} :
    x ∈ insertLe le a l ↔ x = a ∨ x ∈ l := by
  constructor
  · intro h
    have := (insertLe_perm le a l).mem_iff.mp h
    simpa using this
  · intro h
    apply (insertLe_perm le a l).mem_iff.mpr
    simpa using h

theorem insertLe_pairwise {le : α → α → Bool}
    (htot : ∀ x y, le x y = true ∨ le y x = true)
    (htrans : ∀ x y z, le x y = true → le y z = true → le x z = true)
    {a : α} {l : List α} (h : l.Pairwise (fun x y => le x y = true)) :
    (insertLe le a l).Pairwise (fun x y => le x y = true) := by
  induction l with
  | nil => simp [insertLe]
  | cons b bs ih =>
    rcases List.pairwise_cons.mp h with ⟨hb, hbs⟩
    by_cases hab : le a b
    · simp only [insertLe, hab, if_pos]
      refine List.pairwise_cons.mpr ⟨?_, h⟩
      intro x hx
      rcases List.mem_cons.mp hx with rfl | hx
      · exact hab
      · exact htrans a b x hab (hb x hx)
    · have hba : le b a = true := (htot a b).resolve_left (by simpa using hab)
      simp only [insertLe, hab, if_neg, Bool.not_eq_true]
      refine List.pairwise_cons.mpr ⟨?_, ih hbs⟩
      intro x hx
      rcases mem_insertLe.mp hx with rfl | hx
      · exact hba
      · exact hb x hx

theorem sortBy_pairwise {le : α → α → Bool}
    (htot : ∀ x y, le x y = true ∨ le y x = true)
    (htrans : ∀ x y z, le x y = true → le y z = true → le x z = true)
    (l : List α) :
    (sortBy le l).Pairwise (fun x y => le x y = true) := by
  induction l with
  | nil => simp [sortBy]
  | cons a as ih => exact insertLe_pairwise htot htrans ih

theorem mem_dedupFirstAux [DecidableEq α] {x : α} {seen l : List α} :
    x ∈ dedupFirstAux seen l → x ∈ l := by
  induction l generalizing seen with
  | nil => simp [dedupFirstAux]
  | cons a as ih =>
    intro h
    by_cases ha : a ∈ seen
    · simp only [dedupFirstAux, ha, if_pos] at h
      exact List.mem_cons_of_mem a (ih h)
    · simp only [dedupFirstAux, ha, if_neg, not_false_iff] at h
      rcases List.mem_cons.mp h with rfl | h
      · exact List.mem_cons_self x as
      · exact List.mem_cons_of_mem a (ih h)

theorem mem_dedupFirst [DecidableEq α] {x : α} {l : List α} :
    x ∈ dedupFirst l → x ∈ l := mem_dedupFirstAux

theorem dedupFirstAux_nodup [DecidableEq α] (seen l : List α) :
    (dedupFirstAux seen l).Nodup ∧ ∀ x ∈ seen, x ∉ dedupFirstAux seen l := by
  induction l generalizing seen with
  | nil => simp [dedupFirstAux]
  | cons a as ih =>
    by_cases ha : a ∈ seen
    · simp only [dedupFirstAux, ha, if_pos]
      exact ih seen
    · simp only [dedupFirstAux, ha, if_neg, not_false_iff]
      rcases ih (a :: seen) with ⟨hnd, hnotin⟩
      constructor
      · exact List.nodup_cons.mpr ⟨hnotin a (List.mem_cons_self a seen), hnd⟩
      · intro x hx hmem
        rcases List.mem_cons.mp hmem with rfl | hmem
        · exact ha hx
        · exact hnotin x (List.mem_cons_of_mem a hx) hmem

theorem dedupFirst_nodup [DecidableEq α] (l : List α) : (dedupFirst l).Nodup :=
  (dedupFirstAux_nodup [] l).1

/-! ### Lemmas about `List.foldl min` / `List.foldl max` over `ℚ` -/

theorem foldl_min_le_init : ∀ (l : List ℚ) (a : ℚ), l.foldl min a ≤ a
  | [], a => le_refl a
  | b :: bs, a =>
    le_trans (foldl_min_le_init bs (min a b)) (min_le_left a b)

theorem foldl_min_le_mem : ∀ (l : List ℚ) (a : ℚ) (x : ℚ), x ∈ l → l.foldl min a ≤ x
  | b :: bs, a, x, hx => by
    rcases List.mem_cons.mp hx with rfl | hx
    · exact le_trans (foldl_min_le_init bs (min a x)) (min_le_right a x)
    · exact foldl_min_le_mem bs (min a b) x hx

theorem foldl_min_attained : ∀ (l : List ℚ) (a : ℚ), l.foldl min a = a ∨ l.foldl min a ∈ l
  | [], a => Or.inl rfl
  | b :: bs, a => by
    rcases foldl_min_attained bs (min a b) with h | h
    · rcases min_choice a b with hm | hm
      · exact Or.inl (by rw [List.foldl_cons, h, hm])
      · exact Or.inr (by rw [List.foldl_cons, h, hm]; exact List.mem_cons_self b bs)
    · exact Or.inr (List.mem_cons_of_mem b h)

theorem init_le_foldl_max : ∀ (l : List ℚ) (a : ℚ), a ≤ l.foldl max a
  | [], a => le_refl a
  | b :: bs, a =>
    le_trans (le_max_left a b) (init_le_foldl_max bs (max a b))

theorem mem_le_foldl_max : ∀ (l : List ℚ) (a : ℚ) (x : ℚ), x ∈ l → x ≤ l.foldl max a
  | b :: bs, a, x, hx => by
    rcases List.mem_cons.mp hx with rfl | hx
    · exact le_trans (le_max_right a x) (init_le_foldl_max bs (max a x))
    · exact mem_le_foldl_max bs (max a b) x hx

theorem foldl_max_attained : ∀ (l : List ℚ) (a : ℚ), l.foldl max a = a ∨ l.foldl max a ∈ l
  | [], a => Or.inl rfl
  | b :: bs, a => by
    rcases foldl_max_attained bs (max a b) with h | h
    · rcases max_choice a b with hm | hm
      · exact Or.inl (by rw [List.foldl_cons, h, hm])
      · exact Or.inr (by rw [List.foldl_cons, h, hm]; exact List.mem_cons_self b bs)
    · exact Or.inr (List.mem_cons_of_mem b h)

/-! ### Lemmas about `normalize_scores` -/

theorem normalize_scores_cons (s0 : ℚ) (rest : List ℚ) :
    normalize_scores (s0 :: rest) =
      if rest.foldl max s0 = rest.foldl min s0 then
        (s0 :: rest).map (fun _ => (0 : ℚ))
      else
        (s0 :: rest).map
          (fun s => (s - rest.foldl min s0) / (rest.foldl max s0 - rest.foldl min s0)) := rfl

theorem min_le_mem_cons {s0 : ℚ} {rest : List ℚ} {x : ℚ} (hx : x ∈ s0 :: rest) :
    rest.foldl min s0 ≤ x := by
  rcases List.mem_cons.mp hx with rfl | hx
  · exact foldl_min_le_init rest x
  · exact foldl_min_le_mem rest s0 x hx

theorem mem_cons_le_max {s0 : ℚ} {rest : List ℚ} {x : ℚ} (hx : x ∈ s0 :: rest) :
    x ≤ rest.foldl max s0 := by
  rcases List.mem_cons.mp hx with rfl | hx
  · exact init_le_foldl_max rest x
  · exact mem_le_foldl_max rest s0 x hx

theorem min_mem_cons (s0 : ℚ) (rest : List ℚ) : rest.foldl min s0 ∈ s0 :: rest := by
  rcases foldl_min_attained rest s0 with h | h
  · rw [h]; exact List.mem_cons_self s0 rest
  · exact List.mem_cons_of_mem s0 h

theorem max_mem_cons (s0 : ℚ) (rest : List ℚ) : rest.foldl max s0 ∈ s0 :: rest := by
  rcases foldl_max_attained rest s0 with h | h
  · rw [h]; exact List.mem_cons_self s0 rest
  · exact List.mem_cons_of_mem s0 h

theorem normalize_scores_length (scores : List ℚ) :
    (normalize_scores scores).length = scores.length := by
  cases scores with
  | nil => rfl
  | cons s0 rest =>
    rw [normalize_scores_cons]
    split <;> simp

theorem normalize_scores_mem_bounds {scores : List ℚ} :
    ∀ x ∈ normalize_scores scores, 0 ≤ x ∧ x ≤ 1 := by
  cases scores with
  | nil => intro x hx; simp [normalize_scores] at hx
  | cons s0 rest =>
    intro x hx
    rw [normalize_scores_cons] at hx
    by_cases hc : rest.foldl max s0 = rest.foldl min s0
    · rw [if_pos hc] at hx
      rcases List.mem_map.mp hx with ⟨y, _, rfl⟩
      norm_num
    · rw [if_neg hc] at hx
      rcases List.mem_map.mp hx with ⟨y, hy, rfl⟩
      have hmn : rest.foldl min s0 ≤ y := min_le_mem_cons hy
      have hmx : y ≤ rest.foldl max s0 := mem_cons_le_max hy
      have hle : rest.foldl min s0 ≤ rest.foldl max s0 := le_trans hmn hmx
      have hlt : rest.foldl min s0 < rest.foldl max s0 :=
        lt_of_le_of_ne hle (fun h => hc h.symm)
      have hpos : (0 : ℚ) < rest.foldl max s0 - rest.foldl min s0 := by linarith
      constructor
      · apply div_nonneg (by linarith) (le_of_lt hpos)
      · rw [div_le_one hpos]; linarith

theorem normalize_scores_const {scores : List ℚ}
    (h : ∀ x ∈ scores, ∀ y ∈ scores, x = y) :
    ∀ z ∈ normalize_scores scores, z = 0 := by
  cases scores with
  | nil => intro z hz; simp [normalize_scores] at hz
  | cons s0 rest =>
    intro z hz
    rw [normalize_scores_cons] at hz
    have hc : rest.foldl max s0 = rest.foldl min s0 :=
      h _ (max_mem_cons s0 rest) _ (min_mem_cons s0 rest)
    rw [if_pos hc] at hz
    rcases List.mem_map.mp hz with ⟨y, _, rfl⟩
    rfl

theorem normalize_scores_pairwise_ge {scores : List ℚ}
    (h : scores.Pairwise (fun a b => a ≥ b)) :
    (normalize_scores scores).Pairwise (fun a b => a ≥ b) := by
  cases scores with
  | nil => simp [normalize_scores]
  | cons s0 rest =>
    rw [normalize_scores_cons]
    by_cases hc : rest.foldl max s0 = rest.foldl min s0
    · rw [if_pos hc]
      exact h.map _ (fun a b _ => le_refl 0)
    · rw [if_neg hc]
      have hlt : rest.foldl min s0 < rest.foldl max s0 := by
        have hle : rest.foldl min s0 ≤ rest.foldl max s0 :=
          le_trans (min_le_mem_cons (List.mem_cons_self s0 rest))
            (mem_cons_le_max (List.mem_cons_self s0 rest))
        exact lt_of_le_of_ne hle (fun h2 => hc h2.symm)
      have hpos : (0 : ℚ) < rest.foldl max s0 - rest.foldl min s0 := by linarith
      exact h.map _ (fun a b hab => (div_le_div_iff_of_pos_right hpos).mpr (by linarith))

theorem getD_map_lt (f : ℚ → ℚ) (l : List ℚ) (i : ℕ) (h : i < l.length) :
    (l.map f).getD i 0 = f (l.getD i 0) := by
  rw [List.getD_eq_getElem _ _ (by simpa using h), List.getD_eq_getElem _ _ h,
    List.getElem_map]

theorem getD_mem_of_lt (l : List ℚ) (i : ℕ) (h : i < l.length) : l.getD i 0 ∈ l := by
  rw [List.getD_eq_getElem _ _ h]
  exact List.getElem_mem h

theorem normalize_scores_monotone {scores : List ℚ} {i j : ℕ}
    (hi : i < scores.length) (hj : j < scores.length)
    (hij : scores.getD i 0 ≤ scores.getD j 0) :
    (normalize_scores scores).getD i 0 ≤ (normalize_scores scores).getD j 0 := by
  cases scores with
  | nil => simp at hi
  | cons s0 rest =>
    rw [normalize_scores_cons]
    by_cases hc : rest.foldl max s0 = rest.foldl min s0
    · rw [if_pos hc, getD_map_lt _ _ _ hi, getD_map_lt _ _ _ hj]
    · rw [if_neg hc, getD_map_lt _ _ _ hi, getD_map_lt _ _ _ hj]
      have hlt : rest.foldl min s0 < rest.foldl max s0 := by
        have hle : rest.foldl min s0 ≤ rest.foldl max s0 :=
          le_trans (min_le_mem_cons (List.mem_cons_self s0 rest))
            (mem_cons_le_max (List.mem_cons_self s0 rest))
        exact lt_of_le_of_ne hle (fun h2 => hc h2.symm)
      exact (div_le_div_iff_of_pos_right (by linarith)).mpr (by linarith)

theorem cons_not_const_max_ne_min {s0 : ℚ} {rest : List ℚ}
    (hne : ∃ a ∈ s0 :: rest, ∃ b ∈ s0 :: rest, a ≠ b) :
    rest.foldl max s0 ≠ rest.foldl min s0 := by
  rcases hne with ⟨a, ha, b, hb, hab⟩
  intro hc
  apply hab
  have h1 : a ≤ rest.foldl max s0 := mem_cons_le_max ha
  have h2 : rest.foldl min s0 ≤ a := min_le_mem_cons ha
  have h3 : b ≤ rest.foldl max s0 := mem_cons_le_max hb
  have h4 : rest.foldl min s0 ≤ b := min_le_mem_cons hb
  rw [hc] at h1 h3
  linarith

theorem normalize_scores_min_eq_zero {scores : List ℚ} {i : ℕ}
    (hi : i < scores.length)
    (hne : ∃ a ∈ scores, ∃ b ∈ scores, a ≠ b)
    (hmin : ∀ y ∈ scores, scores.getD i 0 ≤ y) :
    (normalize_scores scores).getD i 0 = 0 := by
  cases scores with
  | nil => simp at hi
  | cons s0 rest =>
    rw [normalize_scores_cons, if_neg (cons_not_const_max_ne_min hne),
      getD_map_lt _ _ _ hi]
    have h1 : rest.foldl min s0 ≤ (s0 :: rest).getD i 0 :=
      min_le_mem_cons (getD_mem_of_lt _ _ hi)
    have h2 : (s0 :: rest).getD i 0 ≤ rest.foldl min s0 :=
      hmin _ (min_mem_cons s0 rest)
    rw [le_antisymm h2 h1]
    simp

theorem normalize_scores_max_eq_one {scores : List ℚ} {i : ℕ}
    (hi : i < scores.length)
    (hne : ∃ a ∈ scores, ∃ b ∈ scores, a ≠ b)
    (hmax : ∀ y ∈ scores, y ≤ scores.getD i 0) :
    (normalize_scores scores).getD i 0 = 1 := by
  cases scores with
  | nil => simp at hi
  | cons s0 rest =>
    have hc := cons_not_const_max_ne_min hne
    rw [normalize_scores_cons, if_neg hc, getD_map_lt _ _ _ hi]
    have h1 : (s0 :: rest).getD i 0 ≤ rest.foldl max s0 :=
      mem_cons_le_max (getD_mem_of_lt _ _ hi)
    have h2 : rest.foldl max s0 ≤ (s0 :: rest).getD i 0 :=
      hmax _ (max_mem_cons s0 rest)
    rw [le_antisymm h1 h2]
    exact div_self (sub_ne_zero.mpr hc)

/-! ### Lemmas about `argsort` and `top_indices` -/

theorem argsortLe_total (s : List ℚ) : ∀ i j, argsortLe s i j = true ∨ argsortLe s j i = true := by
  intro i j
  unfold argsortLe
  rcases lt_trichotomy (s.getD i 0) (s.getD j 0) with h | h | h
  · exact Or.inl (Bool.or_eq_true_iff.mpr (Or.inl (decide_eq_true h)))
  · rcases Nat.le_total i j with hij | hij
    · exact Or.inl (Bool.or_eq_true_iff.mpr
        (Or.inr (Bool.and_eq_true_iff.mpr ⟨decide_eq_true h, decide_eq_true hij⟩)))
    · exact Or.inr (Bool.or_eq_true_iff.mpr
        (Or.inr (Bool.and_eq_true_iff.mpr ⟨decide_eq_true h.symm, decide_eq_true hij⟩)))
  · exact Or.inr (Bool.or_eq_true_iff.mpr (Or.inl (decide_eq_true h)))

theorem argsortLe_trans (s : List ℚ) :
    ∀ i j k, argsortLe s i j = true → argsortLe s j k = true → argsortLe s i k = true := by
  intro i j k hij hjk
  unfold argsortLe at hij hjk ⊢
  rcases Bool.or_eq_true_iff.mp hij with h1 | h1 <;>
    rcases Bool.or_eq_true_iff.mp hjk with h2 | h2
  · exact Bool.or_eq_true_iff.mpr
      (Or.inl (decide_eq_true (lt_trans (of_decide_eq_true h1) (of_decide_eq_true h2))))
  · rcases Bool.and_eq_true_iff.mp h2 with ⟨h2a, _⟩
    exact Bool.or_eq_true_iff.mpr
      (Or.inl (decide_eq_true ((of_decide_eq_true h2a) ▸ (of_decide_eq_true h1))))
  · rcases Bool.and_eq_true_iff.mp h1 with ⟨h1a, _⟩
    exact Bool.or_eq_true_iff.mpr
      (Or.inl (decide_eq_true ((of_decide_eq_true h1a) ▸ (of_decide_eq_true h2))))
  · rcases Bool.and_eq_true_iff.mp h1 with ⟨h1a, h1b⟩
    rcases Bool.and_eq_true_iff.mp h2 with ⟨h2a, h2b⟩
    exact Bool.or_eq_true_iff.mpr
      (Or.inr (Bool.and_eq_true_iff.mpr
        ⟨decide_eq_true ((of_decide_eq_true h1a).trans (of_decide_eq_true h2a)),
         decide_eq_true (Nat.le_trans (of_decide_eq_true h1b) (of_decide_eq_true h2b))⟩))

theorem argsort_perm (s : List ℚ) : List.Perm (argsort s) (List.range s.length) :=
  sortBy_perm _ _

theorem argsort_nodup (s : List ℚ) : (argsort s).Nodup :=
  (argsort_perm s).nodup_iff.mpr (List.nodup_range _)

theorem mem_argsort_lt {s : List ℚ} {i : ℕ} (h : i ∈ argsort s) : i < s.length := by
  have := (argsort_perm s).mem_iff.mp h
  simpa using this

theorem pairwise_imp {R S : α → α → Prop} {l : List α}
    (h : ∀ a b, R a b → S a b) (hp : l.Pairwise R) : l.Pairwise S :=
  hp.imp (fun {a b} => h a b)

theorem pairwise_and {R S : α → α → Prop} {l : List α}
    (h1 : l.Pairwise R) (h2 : l.Pairwise S) :
    l.Pairwise (fun a b => R a b ∧ S a b) := by
  induction l with
  | nil => simp
  | cons a as ih =>
    rcases List.pairwise_cons.mp h1 with ⟨ha, has⟩
    rcases List.pairwise_cons.mp h2 with ⟨hb, hbs⟩
    exact List.pairwise_cons.mpr ⟨fun x hx => ⟨ha x hx, hb x hx⟩, ih has hbs⟩

theorem top_indices_nodup (s : List ℚ) (k : ℕ) : (top_indices s k).Nodup :=
  (List.nodup_reverse.mpr (argsort_nodup s)).sublist (List.take_sublist _ _)

theorem mem_top_indices_lt {s : List ℚ} {k i : ℕ} (h : i ∈ top_indices s k) :
    i < s.length := by
  have h1 : i ∈ (argsort s).reverse := List.mem_of_mem_take h
  exact mem_argsort_lt (List.mem_reverse.mp h1)

theorem top_indices_length_le (s : List ℚ) (k : ℕ) : (top_indices s k).length ≤ k :=
  List.length_take_le _ _

/-- The descending property of `top_indices` together with the exact tie
behavior of `argsort()[::-1]`: equal scores come out in order of decreasing
index, i.e. in reverse corpus order. -/
theorem top_indices_pairwise (s : List ℚ) (k : ℕ) :
    (top_indices s k).Pairwise
      (fun i j => s.getD j 0 < s.getD i 0 ∨ (s.getD i 0 = s.getD j 0 ∧ j < i)) := by
  have hp : (argsort s).Pairwise (fun i j => argsortLe s i j = true) :=
    sortBy_pairwise (argsortLe_total s) (argsortLe_trans s) _
  have hrev : ((argsort s).reverse).Pairwise (fun i j => argsortLe s j i = true) :=
    List.pairwise_reverse.mpr hp
  have hnd : ((argsort s).reverse).Pairwise (fun i j => i ≠ j) :=
    List.nodup_reverse.mpr (argsort_nodup s)
  have hcomb := pairwise_and hrev hnd
  have htake := hcomb.sublist (List.take_sublist k _)
  apply pairwise_imp _ htake
  intro i j h
  rcases h with ⟨hle, hne⟩
  unfold argsortLe at hle
  rcases Bool.or_eq_true_iff.mp hle with h1 | h1
  · exact Or.inl (of_decide_eq_true h1)
  · rcases Bool.and_eq_true_iff.mp h1 with ⟨h1a, h1b⟩
    have h1a := of_decide_eq_true h1a
    have h1b := of_decide_eq_true h1b
    exact Or.inr ⟨h1a.symm, lt_of_le_of_ne h1b (fun h => hne h.symm)⟩

theorem top_indices_scores_pairwise_ge (s : List ℚ) (k : ℕ) :
    ((top_indices s k).map (fun j => s.getD j 0)).Pairwise (fun a b => a ≥ b) := by
  refine List.Pairwise.map _ ?_ (top_indices_pairwise s k)
  intro i j h
  rcases h with h | h
  · exact le_of_lt h
  · exact le_of_eq h.1.symm

/-! ### Lemmas about `dictAdd`, `lookupQ`, `combined_scores` -/

theorem lookupQ_dictAdd_self (d : List (String × ℚ)) (id : String) (v : ℚ) :
    lookupQ (dictAdd d id v) id = some ((lookupQ d id).getD 0 + v) := by
  induction d with
  | nil => simp [dictAdd, lookupQ]
  | cons p rest ih =>
    obtain ⟨key, w⟩ := p
    by_cases h : key = id
    · subst h
      simp [dictAdd, lookupQ]
    · simp [dictAdd, lookupQ, h, ih]

theorem lookupQ_dictAdd_other (d : List (String × ℚ)) (id id' : String) (v : ℚ)
    (h : id' ≠ id) : lookupQ (dictAdd d id v) id' = lookupQ d id' := by
  induction d with
  | nil => simp [dictAdd, lookupQ, Ne.symm h]
  | cons p rest ih =>
    obtain ⟨key, w⟩ := p
    by_cases hk : key = id
    · subst hk
      simp [dictAdd, lookupQ, Ne.symm h]
    · simp [dictAdd, lookupQ, hk, ih]

theorem dictAdd_keys (d : List (String × ℚ)) (id : String) (v : ℚ) :
    (dictAdd d id v).map Prod.fst =
      if id ∈ d.map Prod.fst then d.map Prod.fst else d.map Prod.fst ++ [id] := by
  induction d with
  | nil => simp [dictAdd]
  | cons p rest ih =>
    obtain ⟨key, w⟩ := p
    by_cases hk : key = id
    · subst hk
      simp [dictAdd]
    · simp only [dictAdd, hk, if_neg, ne_eq, not_false_iff, List.map_cons]
      rw [ih]
      by_cases hm : id ∈ rest.map Prod.fst
      · simp [hm, Ne.symm hk]
      · simp [hm, Ne.symm hk]

theorem dictAdd_keys_nodup {d : List (String × ℚ)} (id : String) (v : ℚ)
    (h : (d.map Prod.fst).Nodup) : ((dictAdd d id v).map Prod.fst).Nodup := by
  rw [dictAdd_keys]
  by_cases hm : id ∈ d.map Prod.fst
  · simpa [hm] using h
  · rw [if_neg hm]
    simp only [List.nodup_append, List.nodup_cons, List.nodup_nil]
    exact ⟨h, by simp, by simpa using hm⟩

theorem lookupQ_eq_none {d : List (String × ℚ)} {id : String}
    (h : id ∉ d.map Prod.fst) : lookupQ d id = none := by
  induction d with
  | nil => rfl
  | cons p rest ih =>
    obtain ⟨key, w⟩ := p
    simp only [List.map_cons, List.mem_cons, not_or] at h
    have hk : key ≠ id := fun he => h.1 he.symm
    simp [lookupQ, hk, ih h.2]

theorem lookupQ_some_mem {d : List (String × ℚ)} {id : String} {v : ℚ}
    (h : lookupQ d id = some v) : (id, v) ∈ d := by
  induction d with
  | nil => simp [lookupQ] at h
  | cons p rest ih =>
    obtain ⟨key, w⟩ := p
    by_cases hk : key = id
    · subst hk
      have hw : w = v := by simpa [lookupQ] using h
      subst hw
      exact List.mem_cons_self _ _
    · simp only [lookupQ, hk, if_neg, not_false_iff] at h
      exact List.mem_cons_of_mem _ (ih h)

theorem lookupQ_of_mem_nodup {d : List (String × ℚ)} {id : String} {v : ℚ}
    (hnd : (d.map Prod.fst).Nodup) (h : (id, v) ∈ d) : lookupQ d id = some v := by
  induction d with
  | nil => simp at h
  | cons p rest ih =>
    obtain ⟨key, w⟩ := p
    simp only [List.map_cons, List.nodup_cons] at hnd
    rcases List.mem_cons.mp h with he | hm
    · have h1 : id = key := congrArg Prod.fst he
      have h2 : v = w := congrArg Prod.snd he
      subst h1
      subst h2
      simp [lookupQ]
    · have hk : key ≠ id := by
        intro he
        subst he
        exact hnd.1 (List.mem_map.mpr ⟨(key, v), hm, rfl⟩)
      simp [lookupQ, hk, ih hnd.2 hm]

/-- Characterization of one method's contribution loop in `retrieve_by_hybrid`
(`combined_scores[case_id] = combined_scores.get(case_id, 0.0) + score * 0.5`
over a result list with distinct case ids). -/
theorem lookupQ_foldHalf (l : List (String × ℚ)) (hnd : (l.map Prod.fst).Nodup) :
    ∀ (d : List (String × ℚ)) (id : String),
      lookupQ (l.foldl (fun d p => dictAdd d p.1 (p.2 * (1/2))) d) id =
        match lookupQ l id with
        | none => lookupQ d id
        | some s => some ((lookupQ d id).getD 0 + s * (1/2)) := by
  induction l with
  | nil => intro d id; simp [lookupQ]
  | cons p rest ih =>
    intro d id
    obtain ⟨k0, s0⟩ := p
    simp only [List.map_cons, List.nodup_cons] at hnd
    simp only [List.foldl_cons]
    rw [ih hnd.2 (dictAdd d k0 (s0 * (1/2))) id]
    by_cases h : k0 = id
    · subst h
      have hrest : lookupQ rest k0 = none := lookupQ_eq_none hnd.1
      rw [hrest]
      simp only [lookupQ, if_pos rfl]
      exact lookupQ_dictAdd_self d k0 (s0 * (1/2))
    · have hcons : lookupQ ((k0, s0) :: rest) id = lookupQ rest id := by
        simp [lookupQ, h]
      rw [hcons, lookupQ_dictAdd_other d k0 id _ (fun he => h he.symm)]

theorem foldHalf_keys_nodup (l : List (String × ℚ)) :
    ∀ d : List (String × ℚ), (d.map Prod.fst).Nodup →
      ((l.foldl (fun d p => dictAdd d p.1 (p.2 * (1/2))) d).map Prod.fst).Nodup := by
  induction l with
  | nil => intro d hd; exact hd
  | cons p rest ih =>
    intro d hd
    simp only [List.foldl_cons]
    exact ih _ (dictAdd_keys_nodup _ _ hd)

theorem combined_scores_keys_nodup {t b : List (String × ℚ)} :
    ((combined_scores t b).map Prod.fst).Nodup := by
  unfold combined_scores
  exact foldHalf_keys_nodup b _ (foldHalf_keys_nodup t [] (by simp))

/-- The hybrid fusion law at the dict level: the combined score of a case id
is half its TF-IDF score plus half its BERT score, a missing method
contributing nothing. -/
theorem lookupQ_combined_scores {t b : List (String × ℚ)}
    (hnt : (t.map Prod.fst).Nodup) (hnb : (b.map Prod.fst).Nodup) (id : String) :
    lookupQ (combined_scores t b) id =
      match lookupQ t id, lookupQ b id with
      | none, none => none
      | some a, none => some (a * (1/2))
      | none, some c => some (c * (1/2))
      | some a, some c => some (a * (1/2) + c * (1/2)) := by
  unfold combined_scores
  rw [lookupQ_foldHalf b hnb, lookupQ_foldHalf t hnt []]
  cases ht : lookupQ t id <;> cases hb : lookupQ b id <;>
    simp [lookupQ]

/-! ### Lemmas about `sorted_cases` and `retrieve_by_hybrid_query` -/

theorem hybridLe_total : ∀ a b : ℕ × (String × ℚ), hybridLe a b = true ∨ hybridLe b a = true := by
  intro a b
  unfold hybridLe
  rcases lt_trichotomy a.2.2 b.2.2 with h | h | h
  · exact Or.inr (Bool.or_eq_true_iff.mpr (Or.inl (decide_eq_true h)))
  · rcases Nat.le_total a.1 b.1 with hij | hij
    · exact Or.inl (Bool.or_eq_true_iff.mpr
        (Or.inr (Bool.and_eq_true_iff.mpr ⟨decide_eq_true h, decide_eq_true hij⟩)))
    · exact Or.inr (Bool.or_eq_true_iff.mpr
        (Or.inr (Bool.and_eq_true_iff.mpr ⟨decide_eq_true h.symm, decide_eq_true hij⟩)))
  · exact Or.inl (Bool.or_eq_true_iff.mpr (Or.inl (decide_eq_true h)))

theorem hybridLe_trans : ∀ a b c : ℕ × (String × ℚ),
    hybridLe a b = true → hybridLe b c = true → hybridLe a c = true := by
  intro a b c hab hbc
  unfold hybridLe at hab hbc ⊢
  rcases Bool.or_eq_true_iff.mp hab with h1 | h1 <;>
    rcases Bool.or_eq_true_iff.mp hbc with h2 | h2
  · exact Bool.or_eq_true_iff.mpr
      (Or.inl (decide_eq_true (lt_trans (of_decide_eq_true h2) (of_decide_eq_true h1))))
  · rcases Bool.and_eq_true_iff.mp h2 with ⟨h2a, _⟩
    exact Bool.or_eq_true_iff.mpr
      (Or.inl (decide_eq_true ((of_decide_eq_true h2a) ▸ (of_decide_eq_true h1))))
  · rcases Bool.and_eq_true_iff.mp h1 with ⟨h1a, _⟩
    have h2 := of_decide_eq_true h2
    have h1a := of_decide_eq_true h1a
    exact Bool.or_eq_true_iff.mpr (Or.inl (decide_eq_true (h1a ▸ h2)))
  · rcases Bool.and_eq_true_iff.mp h1 with ⟨h1a, h1b⟩
    rcases Bool.and_eq_true_iff.mp h2 with ⟨h2a, h2b⟩
    exact Bool.or_eq_true_iff.mpr
      (Or.inr (Bool.and_eq_true_iff.mpr
        ⟨decide_eq_true ((of_decide_eq_true h1a).trans (of_decide_eq_true h2a)),
         decide_eq_true (Nat.le_trans (of_decide_eq_true h1b) (of_decide_eq_true h2b))⟩))

theorem sorted_cases_perm (d : List (String × ℚ)) :
    List.Perm ((sorted_cases d).map Prod.snd) d := by
  have h1 : List.Perm (sorted_cases d) d.enum := sortBy_perm _ _
  have h2 := h1.map Prod.snd
  rwa [List.enum_map_snd] at h2

theorem sorted_cases_pairwise (d : List (String × ℚ)) :
    (sorted_cases d).Pairwise
      (fun a b => b.2.2 < a.2.2 ∨ (a.2.2 = b.2.2 ∧ a.1 < b.1)) := by
  have hp : (sorted_cases d).Pairwise (fun a b => hybridLe a b = true) :=
    sortBy_pairwise hybridLe_total hybridLe_trans _
  have hfst : d.enum.Pairwise (fun a b => a.1 ≠ b.1) := by
    apply List.pairwise_map.mp
    rw [List.enum_map_fst]
    exact List.nodup_range _
  have hne : (sorted_cases d).Pairwise (fun a b => a.1 ≠ b.1) :=
    ((sortBy_perm hybridLe d.enum).pairwise_iff (fun {a b} h => Ne.symm h)).mpr hfst
  apply pairwise_imp _ (pairwise_and hp hne)
  intro a b h
  rcases h with ⟨hle, hab⟩
  unfold hybridLe at hle
  rcases Bool.or_eq_true_iff.mp hle with h1 | h1
  · exact Or.inl (of_decide_eq_true h1)
  · rcases Bool.and_eq_true_iff.mp h1 with ⟨h1a, h1b⟩
    exact Or.inr ⟨of_decide_eq_true h1a, lt_of_le_of_ne (of_decide_eq_true h1b) hab⟩

theorem retrieve_by_tfidf_query_def (case_ids : List String) (sim_scores : List ℚ)
    (top_k : ℕ) :
    retrieve_by_tfidf_query case_ids sim_scores top_k =
      ((top_indices sim_scores top_k).map (fun j => case_ids.getD j ""),
       normalize_scores ((top_indices sim_scores top_k).map (fun j => sim_scores.getD j 0))) :=
  rfl

theorem retrieve_by_hybrid_query_def (case_ids : List String)
    (tfidf_sims bert_sims : List ℚ) (top_k : ℕ) :
    retrieve_by_hybrid_query case_ids tfidf_sims bert_sims top_k =
      (let t := retrieve_by_tfidf_query case_ids tfidf_sims (top_k * 2)
       let b := retrieve_by_tfidf_query case_ids bert_sims (top_k * 2)
       let sc := (sorted_cases (combined_scores (t.1.zip t.2) (b.1.zip b.2))).map Prod.snd
       ((sc.take top_k).map Prod.fst, (sc.take top_k).map Prod.snd)) :=
  rfl

theorem retrieve_query_lengths (case_ids : List String) (sim_scores : List ℚ)
    (top_k : ℕ) :
    (retrieve_by_tfidf_query case_ids sim_scores top_k).1.length =
        (top_indices sim_scores top_k).length ∧
      (retrieve_by_tfidf_query case_ids sim_scores top_k).2.length =
        (top_indices sim_scores top_k).length := by
  rw [retrieve_by_tfidf_query_def]
  constructor
  · simp
  · simp [normalize_scores_length]

theorem retrieve_query_ids_nodup {case_ids : List String} {sim_scores : List ℚ}
    {top_k : ℕ} (hnd : case_ids.Nodup) (hl : case_ids.length = sim_scores.length) :
    (retrieve_by_tfidf_query case_ids sim_scores top_k).1.Nodup := by
  rw [retrieve_by_tfidf_query_def]
  apply List.Nodup.map_on ?_ (top_indices_nodup sim_scores top_k)
  intro i hi j hj he
  have hi' : i < case_ids.length := hl ▸ mem_top_indices_lt hi
  have hj' : j < case_ids.length := hl ▸ mem_top_indices_lt hj
  rw [List.getD_eq_getElem _ _ hi', List.getD_eq_getElem _ _ hj'] at he
  exact (List.Nodup.getElem_inj_iff hnd).mp he

theorem retrieve_query_scores_bounds (case_ids : List String) (sim_scores : List ℚ)
    (top_k : ℕ) :
    ∀ x ∈ (retrieve_by_tfidf_query case_ids sim_scores top_k).2, 0 ≤ x ∧ x ≤ 1 := by
  rw [retrieve_by_tfidf_query_def]
  exact fun x hx => normalize_scores_mem_bounds x hx

/-- Every value of `combined_scores` lies in `[0,1]` if both input result
lists carry distinct ids and scores in `[0,1]`. -/
theorem combined_scores_values_bounds {t b : List (String × ℚ)}
    (hnt : (t.map Prod.fst).Nodup) (hnb : (b.map Prod.fst).Nodup)
    (ht : ∀ p ∈ t, 0 ≤ p.2 ∧ p.2 ≤ 1) (hb : ∀ p ∈ b, 0 ≤ p.2 ∧ p.2 ≤ 1) :
    ∀ p ∈ combined_scores t b, 0 ≤ p.2 ∧ p.2 ≤ 1 := by
  intro p hp
  obtain ⟨id, v⟩ := p
  have hv : lookupQ (combined_scores t b) id = some v :=
    lookupQ_of_mem_nodup combined_scores_keys_nodup hp
  rw [lookupQ_combined_scores hnt hnb] at hv
  rcases hlt : lookupQ t id with _ | a <;> rcases hlb : lookupQ b id with _ | c <;>
      rw [hlt, hlb] at hv <;> simp only [Option.some_inj] at hv
  · exact absurd hv (by simp)
  · have hc := hb _ (lookupQ_some_mem hlb)
    simp only at hc
    constructor <;> simp only [← hv] <;> linarith [hc.1, hc.2]
  · have ha := ht _ (lookupQ_some_mem hlt)
    simp only at ha
    constructor <;> simp only [← hv] <;> linarith [ha.1, ha.2]
  · have ha := ht _ (lookupQ_some_mem hlt)
    have hc := hb _ (lookupQ_some_mem hlb)
    simp only at ha hc
    constructor <;> simp only [← hv] <;> linarith [ha.1, ha.2, hc.1, hc.2]

/-- The score column of the sorted-and-truncated hybrid result is
nonincreasing. -/
theorem sorted_cases_take_scores_pairwise (d : List (String × ℚ)) (k : ℕ) :
    ((((sorted_cases d).map Prod.snd).take k).map Prod.snd).Pairwise
      (fun x y => x ≥ y) := by
  rw [← List.map_take, List.map_map]
  have htake := (sorted_cases_pairwise d).sublist (List.take_sublist k _)
  refine List.Pairwise.map _ ?_ htake
  intro a b h
  rcases h with h | h
  · exact le_of_lt h
  · exact le_of_eq h.1.symm

/-! ### Claim theorems for the retrieval stage -/

/-- Claim C1, corrected. For every query and method the result list has at
most `top_k` entries and its scores are nonincreasing. The tie behavior is
not "original corpus order": for TF-IDF and BERT, `argsort()[::-1]` puts
equal-scored cases in order of decreasing corpus index (reverse corpus
order), while the hybrid method's stable `sorted` keeps equal-scored cases
in the insertion order of the merged score dict. -/
theorem C1_top_k_ordering (case_ids : List String)
    (sims tfidf_sims bert_sims : List ℚ) (top_k : ℕ) :
    ((retrieve_by_tfidf_query case_ids sims top_k).1.length ≤ top_k ∧
     (retrieve_by_tfidf_query case_ids sims top_k).2.length ≤ top_k) ∧
    (retrieve_by_tfidf_query case_ids sims top_k).2.Pairwise (fun a b => a ≥ b) ∧
    (top_indices sims top_k).Pairwise
      (fun i j => sims.getD j 0 < sims.getD i 0 ∨
        (sims.getD i 0 = sims.getD j 0 ∧ j < i)) ∧
    ((retrieve_by_hybrid_query case_ids tfidf_sims bert_sims top_k).1.length ≤ top_k ∧
     (retrieve_by_hybrid_query case_ids tfidf_sims bert_sims top_k).2.length ≤ top_k) ∧
    (retrieve_by_hybrid_query case_ids tfidf_sims bert_sims top_k).2.Pairwise
      (fun a b => a ≥ b) := by
  refine ⟨⟨?_, ?_⟩, ?_, top_indices_pairwise sims top_k, ⟨?_, ?_⟩, ?_⟩
  · rw [(retrieve_query_lengths case_ids sims top_k).1]
    exact top_indices_length_le sims top_k
  · rw [(retrieve_query_lengths case_ids sims top_k).2]
    exact top_indices_length_le sims top_k
  · rw [retrieve_by_tfidf_query_def]
    exact normalize_scores_pairwise_ge (top_indices_scores_pairwise_ge sims top_k)
  · rw [retrieve_by_hybrid_query_def]
    simp only [List.length_map]
    exact List.length_take_le _ _
  · rw [retrieve_by_hybrid_query_def]
    simp only [List.length_map]
    exact List.length_take_le _ _
  · rw [retrieve_by_hybrid_query_def]
    simp only
    exact sorted_cases_take_scores_pairwise _ top_k

/-- Claim C1 counterexample: two cases with identical raw similarity are
returned by the TF-IDF ranking as `["B", "A"]` - the reverse of their corpus
order `["A", "B"]`, contradicting the claimed stable corpus-order
tie-break. -/
theorem C1_counterexample :
    retrieve_by_tfidf_query ["A", "B"] [1, 1] 2 = (["B", "A"], [0, 0]) ∧
      (["B", "A"] : List String) ≠ ["A", "B"] := by
  constructor
  · decide
  · decide

/-- Claim C2: the hybrid fusion law. A case id present in both per-method
result lists with normalized scores `a` and `c` gets combined score
`a * 0.5 + c * 0.5`; an id present in exactly one list gets half of its
single score; and the hybrid output is the merged dict re-sorted by
nonincreasing combined score and truncated to `top_k`. -/
theorem C2_hybrid_fusion (t b : List (String × ℚ)) (top_k : ℕ)
    (hnt : (t.map Prod.fst).Nodup) (hnb : (b.map Prod.fst).Nodup) :
    (∀ id a c, (id, a) ∈ t → (id, c) ∈ b →
      lookupQ (combined_scores t b) id = some (a * (1/2) + c * (1/2))) ∧
    (∀ id a, (id, a) ∈ t → id ∉ b.map Prod.fst →
      lookupQ (combined_scores t b) id = some (a * (1/2))) ∧
    (∀ id c, (id, c) ∈ b → id ∉ t.map Prod.fst →
      lookupQ (combined_scores t b) id = some (c * (1/2))) ∧
    (((sorted_cases (combined_scores t b)).map Prod.snd).take top_k).length ≤ top_k ∧
    ((((sorted_cases (combined_scores t b)).map Prod.snd).take top_k).map
        Prod.snd).Pairwise (fun x y => x ≥ y) ∧
    (∀ p ∈ ((sorted_cases (combined_scores t b)).map Prod.snd).take top_k,
      p ∈ combined_scores t b) := by
  refine ⟨?_, ?_, ?_, ?_, ?_, ?_⟩
  · intro id a c hat hcb
    rw [lookupQ_combined_scores hnt hnb, lookupQ_of_mem_nodup hnt hat,
      lookupQ_of_mem_nodup hnb hcb]
  · intro id a hat hnotb
    rw [lookupQ_combined_scores hnt hnb, lookupQ_of_mem_nodup hnt hat,
      lookupQ_eq_none hnotb]
  · intro id c hcb hnott
    rw [lookupQ_combined_scores hnt hnb, lookupQ_eq_none hnott,
      lookupQ_of_mem_nodup hnb hcb]
  · exact List.length_take_le _ _
  · exact sorted_cases_take_scores_pairwise _ top_k
  · intro p hp
    exact (sorted_cases_perm (combined_scores t b)).mem_iff.mp
      (List.mem_of_mem_take hp)

theorem C2_hybrid_fusion_witness :
    lookupQ (combined_scores [("A", 1)] [("A", 1/2), ("B", 1)]) "A" =
        some ((1 : ℚ) * (1/2) + (1/2) * (1/2)) ∧
      lookupQ (combined_scores [("A", 1)] [("A", 1/2), ("B", 1)]) "B" =
        some ((1 : ℚ) * (1/2)) := by
  have h := C2_hybrid_fusion [("A", 1)] [("A", 1/2), ("B", 1)] 2
    (by simp) (by simp)
  exact ⟨h.1 "A" 1 (1/2) (by simp) (by simp),
    h.2.2.1 "B" 1 (by simp) (by simp)⟩

/-- Claim C3: all normalized scores of the TF-IDF/BERT ranking lie in [0,1];
if the raw similarity scores selected into the result set are all equal then
every normalized score is 0; and all hybrid scores lie in [0,1] as well
(given distinct case ids, as guaranteed by the deduplicated case base). -/
theorem C3_score_bounds (case_ids : List String)
    (sims tfidf_sims bert_sims : List ℚ) (top_k : ℕ)
    (hnd : case_ids.Nodup)
    (hlt : case_ids.length = tfidf_sims.length)
    (hlb : case_ids.length = bert_sims.length) :
    (∀ x ∈ (retrieve_by_tfidf_query case_ids sims top_k).2, 0 ≤ x ∧ x ≤ 1) ∧
    ((∀ x ∈ (top_indices sims top_k).map (fun j => sims.getD j 0),
        ∀ y ∈ (top_indices sims top_k).map (fun j => sims.getD j 0), x = y) →
      ∀ z ∈ (retrieve_by_tfidf_query case_ids sims top_k).2, z = 0) ∧
    (∀ x ∈ (retrieve_by_hybrid_query case_ids tfidf_sims bert_sims top_k).2,
      0 ≤ x ∧ x ≤ 1) := by
  refine ⟨retrieve_query_scores_bounds case_ids sims top_k, ?_, ?_⟩
  · intro hconst z hz
    rw [retrieve_by_tfidf_query_def] at hz
    exact normalize_scores_const hconst z hz
  · set t := retrieve_by_tfidf_query case_ids tfidf_sims (top_k * 2) with hts
    set b := retrieve_by_tfidf_query case_ids bert_sims (top_k * 2) with hbs
    have hlen_t : t.1.length = t.2.length := by
      rw [hts, (retrieve_query_lengths _ _ _).1, (retrieve_query_lengths _ _ _).2]
    have hlen_b : b.1.length = b.2.length := by
      rw [hbs, (retrieve_query_lengths _ _ _).1, (retrieve_query_lengths _ _ _).2]
    have hzt : (t.1.zip t.2).map Prod.fst = t.1 := List.map_fst_zip _ _ (le_of_eq hlen_t)
    have hzb : (b.1.zip b.2).map Prod.fst = b.1 := List.map_fst_zip _ _ (le_of_eq hlen_b)
    have hnt : ((t.1.zip t.2).map Prod.fst).Nodup := by
      rw [hzt, hts]
      exact retrieve_query_ids_nodup hnd hlt
    have hnb : ((b.1.zip b.2).map Prod.fst).Nodup := by
      rw [hzb, hbs]
      exact retrieve_query_ids_nodup hnd hlb
    have hbt : ∀ p ∈ t.1.zip t.2, 0 ≤ p.2 ∧ p.2 ≤ 1 := by
      intro p hp
      exact retrieve_query_scores_bounds case_ids tfidf_sims (top_k * 2) _
        (List.of_mem_zip hp).2
    have hbb : ∀ p ∈ b.1.zip b.2, 0 ≤ p.2 ∧ p.2 ≤ 1 := by
      intro p hp
      exact retrieve_query_scores_bounds case_ids bert_sims (top_k * 2) _
        (List.of_mem_zip hp).2
    intro x hx
    rw [retrieve_by_hybrid_query_def] at hx
    simp only [← hts, ← hbs] at hx
    rcases List.mem_map.mp hx with ⟨p, hp, rfl⟩
    have hpmem : p ∈ combined_scores (t.1.zip t.2) (b.1.zip b.2) :=
      (sorted_cases_perm _).mem_iff.mp (List.mem_of_mem_take hp)
    exact combined_scores_values_bounds hnt hnb hbt hbb p hpmem

theorem C3_score_bounds_witness :
    (0 : ℚ) ≤ 1/2 ∧ (1/2 : ℚ) ≤ 1 := by
  have h := C3_score_bounds ["A", "B"] [1, 2] [1, 2] [2, 1] 1
    (by simp) (by simp) (by simp)
  have heval : (retrieve_by_hybrid_query ["A", "B"] [1, 2] [2, 1] 1).2 = [1/2] := by
    norm_num [retrieve_by_hybrid_query, retrieve_by_tfidf_query, top_indices,
      argsort, sortBy, insertLe, argsortLe, normalize_scores, combined_scores,
      dictAdd, sorted_cases, hybridLe, List.range_succ, List.enum, List.enumFrom]
  exact h.2.2 (1/2) (by rw [heval]; simp)

/-- Claim C10: `normalize_scores` preserves length, is positionally
monotone, and on a non-constant list sends a minimal entry to 0 and a
maximal entry to 1. -/
theorem C10_normalize_scores_shape (scores : List ℚ) :
    (normalize_scores scores).length = scores.length ∧
    (∀ i j, i < scores.length → j < scores.length →
      scores.getD i 0 ≤ scores.getD j 0 →
      (normalize_scores scores).getD i 0 ≤ (normalize_scores scores).getD j 0) ∧
    (∀ i, i < scores.length → (∃ a ∈ scores, ∃ b ∈ scores, a ≠ b) →
      (∀ y ∈ scores, scores.getD i 0 ≤ y) →
      (normalize_scores scores).getD i 0 = 0) ∧
    (∀ i, i < scores.length → (∃ a ∈ scores, ∃ b ∈ scores, a ≠ b) →
      (∀ y ∈ scores, y ≤ scores.getD i 0) →
      (normalize_scores scores).getD i 0 = 1) :=
  ⟨normalize_scores_length scores,
   fun _ _ hi hj hij => normalize_scores_monotone hi hj hij,
   fun _ hi hne hmin => normalize_scores_min_eq_zero hi hne hmin,
   fun _ hi hne hmax => normalize_scores_max_eq_one hi hne hmax⟩

theorem C10_normalize_scores_witness :
    (normalize_scores [(1 : ℚ), 3]).length = 2 ∧
    (normalize_scores [(1 : ℚ), 3]).getD 0 0 = 0 ∧
    (normalize_scores [(1 : ℚ), 3]).getD 1 0 = 1 := by
  have h := C10_normalize_scores_shape [(1 : ℚ), 3]
  exact ⟨h.1,
    h.2.2.1 0 (by decide) ⟨1, by decide, 3, by decide, by decide⟩ (by decide),
    h.2.2.2 1 (by decide) ⟨1, by decide, 3, by decide, by decide⟩ (by decide)⟩

/-! ### Claim theorems for the prediction and evaluation stages -/

/-- Claim C8: the statute extractor of the prediction stage and the one of
the evaluation stage diverge. On `"Pasal 5 Ayat(1)"` 04_predict.py
normalizes the missing space (`"Pasal 5 Ayat (1)"`) while 05_evaluation.py
discards the result of that substitution on its line 95 and returns
`"Pasal 5 Ayat(1)"` - contradicting both docstrings, which require the two
functions to be consistent. -/
theorem C8_extract_pasals_divergence :
    Predict.extract_pasals "Pasal 5 Ayat(1)" = ["Pasal 5 Ayat (1)"] ∧
    Evaluation.extract_pasals "Pasal 5 Ayat(1)" = ["Pasal 5 Ayat(1)"] ∧
    Predict.extract_pasals "Pasal 5 Ayat(1)" ≠
      Evaluation.extract_pasals "Pasal 5 Ayat(1)" :=
  ⟨by decide, by decide, by decide⟩

/-- Claim C5: the end-to-end weighted-vote scenario. Three neighbor cases
with statute fields `"Pasal 2 Ayat (1)"`, `"Pasal 3"`, `"Pasal 2 Ayat (1)"`
and scores 0.9, 0.6, 0.3 give accumulated weights 1.2 and 0.6, and the vote
(with the top-N policy, N = 10) returns `"Pasal 2 Ayat (1); Pasal 3"`. -/
theorem C5_weighted_vote_scenario :
    weighted_majority_vote
        [(⟨"Pasal 2 Ayat (1)"⟩, 9/10), (⟨"Pasal 3"⟩, 6/10),
         (⟨"Pasal 2 Ayat (1)"⟩, 3/10)] = "Pasal 2 Ayat (1); Pasal 3" ∧
    lookupQ (pasal_weighted_scores
        [(⟨"Pasal 2 Ayat (1)"⟩, 9/10), (⟨"Pasal 3"⟩, 6/10),
         (⟨"Pasal 2 Ayat (1)"⟩, 3/10)]) "Pasal 2 Ayat (1)" = some (6/5) ∧
    lookupQ (pasal_weighted_scores
        [(⟨"Pasal 2 Ayat (1)"⟩, 9/10), (⟨"Pasal 3"⟩, 6/10),
         (⟨"Pasal 2 Ayat (1)"⟩, 3/10)]) "Pasal 3" = some (3/5) := by
  have he1 : Predict.extract_pasals "Pasal 2 Ayat (1)" = ["Pasal 2 Ayat (1)"] := by
    decide
  have he2 : Predict.extract_pasals "Pasal 3" = ["Pasal 3"] := by decide
  have hd : pasal_weighted_scores
      [(⟨"Pasal 2 Ayat (1)"⟩, 9/10), (⟨"Pasal 3"⟩, 6/10),
       (⟨"Pasal 2 Ayat (1)"⟩, 3/10)] =
      [("Pasal 2 Ayat (1)", 6/5), ("Pasal 3", 3/5)] := by
    simp only [pasal_weighted_scores, List.foldl_cons, List.foldl_nil, he1, he2]
    norm_num [dictAdd]
  have hne : ¬ ("Pasal 2 Ayat (1)" : String) = "Pasal 3" := by decide
  refine ⟨?_, by rw [hd]; simp [lookupQ], by rw [hd]; simp [lookupQ, hne]⟩
  rw [weighted_majority_vote, hd]
  norm_num [sortBy, insertLe, hybridLe, List.enum, List.enumFrom,
    USE_PREDICTION_THRESHOLD, TOP_N_PREDICTED_PASALS]
  decide

/-! ### The `adjOk` interface -/

theorem adjOk_nil {bad : Char → Char → Bool} : adjOk bad [] = true := rfl

theorem adjOk_single {bad : Char → Char → Bool} {c : Char} :
    adjOk bad [c] = true := rfl

theorem adjOk_cons2 {bad : Char → Char → Bool} {c1 c2 : Char} {cs : List Char} :
    adjOk bad (c1 :: c2 :: cs) = (!(bad c1 c2) && adjOk bad (c2 :: cs)) := rfl

theorem adjOk_cons {bad : Char → Char → Bool} {c : Char} {l : List Char} :
    adjOk bad (c :: l) = true ↔
      (∀ b, l.head? = some b → bad c b = false) ∧ adjOk bad l = true := by
  cases l with
  | nil => simp [adjOk]
  | cons d ds =>
    rw [adjOk_cons2, Bool.and_eq_true, Bool.not_eq_true']
    constructor
    · rintro ⟨h1, h2⟩
      exact ⟨fun b hb => by cases Option.some_inj.mp hb; exact h1, h2⟩
    · rintro ⟨h1, h2⟩
      exact ⟨h1 d rfl, h2⟩

theorem adjOk_tail {bad : Char → Char → Bool} {c : Char} {l : List Char}
    (h : adjOk bad (c :: l) = true) : adjOk bad l = true :=
  (adjOk_cons.mp h).2

theorem adjOk_append_right {bad : Char → Char → Bool} {ys : List Char} :
    ∀ {xs : List Char}, adjOk bad (xs ++ ys) = true → adjOk bad ys = true := by
  intro xs
  induction xs with
  | nil => exact fun h => h
  | cons x xs ih => exact fun h => ih (adjOk_tail h)

theorem adjOk_append_left {bad : Char → Char → Bool} {ys : List Char} :
    ∀ {xs : List Char}, adjOk bad (xs ++ ys) = true → adjOk bad xs = true := by
  intro xs
  induction xs with
  | nil => intro _; rfl
  | cons x xs ih =>
    intro h
    rcases adjOk_cons.mp h with ⟨h1, h2⟩
    refine adjOk_cons.mpr ⟨?_, ih h2⟩
    intro b hb
    apply h1
    cases xs with
    | nil => simp at hb
    | cons d ds => simpa using hb

theorem adjOk_cross {bad : Char → Char → Bool} {ys : List Char} :
    ∀ {xs : List Char} {a b : Char}, adjOk bad (xs ++ ys) = true →
      xs.getLast? = some a → ys.head? = some b → bad a b = false := by
  intro xs
  induction xs with
  | nil => intro a b _ hl; simp at hl
  | cons x xs ih =>
    intro a b h hl hh
    cases xs with
    | nil =>
      simp only [List.getLast?_singleton, Option.some_inj] at hl
      subst hl
      exact (adjOk_cons.mp h).1 b hh
    | cons d ds =>
      have hl' : (d :: ds).getLast? = some a := by
        rw [List.getLast?_cons_cons] at hl
        exact hl
      exact ih (adjOk_tail h) hl' hh

theorem adjOk_append {bad : Char → Char → Bool} {ys : List Char} :
    ∀ {xs : List Char}, adjOk bad xs = true → adjOk bad ys = true →
      (∀ a b, xs.getLast? = some a → ys.head? = some b → bad a b = false) →
      adjOk bad (xs ++ ys) = true := by
  intro xs
  induction xs with
  | nil => intro _ h2 _; exact h2
  | cons x xs ih =>
    intro h1 h2 h3
    rcases adjOk_cons.mp h1 with ⟨hx, hxs⟩
    refine adjOk_cons.mpr ⟨?_, ?_⟩
    · intro b hb
      cases xs with
      | nil => exact h3 x b rfl hb
      | cons d ds =>
        have hdb : d = b := by simpa using hb
        subst hdb
        exact hx d rfl
    · apply ih hxs h2
      intro a b ha hb
      apply h3 a b ?_ hb
      cases xs with
      | nil => simp at ha
      | cons d ds => rw [List.getLast?_cons_cons]; exact ha

theorem adjOk_all {bad : Char → Char → Bool} :
    ∀ {l : List Char}, (∀ a ∈ l, ∀ b ∈ l, bad a b = false) → adjOk bad l = true := by
  intro l
  induction l with
  | nil => intro _; rfl
  | cons c cs ih =>
    intro h
    refine adjOk_cons.mpr ⟨?_, ?_⟩
    · intro b hb
      cases cs with
      | nil => simp at hb
      | cons d ds =>
        have hdb : d = b := by simpa using hb
        subst hdb
        exact h c (List.mem_cons_self c _) d
          (List.mem_cons_of_mem c (List.mem_cons_self _ _))
    · exact ih (fun a ha b hb =>
        h a (List.mem_cons_of_mem c ha) b (List.mem_cons_of_mem c hb))

theorem all_of_sublist {f : Char → Bool} {l1 l2 : List Char}
    (hs : l1.Sublist l2) (h : l2.all f = true) : l1.all f = true := by
  rw [List.all_eq_true] at h ⊢
  exact fun c hc => h c (hs.mem hc)

/-! ### Lemmas about `collapseRuns` -/

theorem collapseRuns_single {p : Char → Bool} {r c : Char} :
    collapseRuns p r [c] = if p c then [r] else [c] := rfl

theorem collapseRuns_cons2 {p : Char → Bool} {r c1 c2 : Char} {cs : List Char} :
    collapseRuns p r (c1 :: c2 :: cs) =
      if p c1 && p c2 then collapseRuns p r (c2 :: cs)
      else (if p c1 then r else c1) :: collapseRuns p r (c2 :: cs) := rfl

theorem collapseRuns_mem {p : Char → Bool} {r : Char} :
    ∀ (l : List Char) (c : Char), c ∈ collapseRuns p r l →
      c = r ∨ (c ∈ l ∧ p c = false) := by
  intro l
  induction l with
  | nil => intro c hc; simp [collapseRuns] at hc
  | cons c1 tl ih =>
    intro c hc
    cases tl with
    | nil =>
      rw [collapseRuns_single] at hc
      by_cases h1 : p c1
      · rw [if_pos h1] at hc
        left
        simpa using hc
      · rw [if_neg h1] at hc
        have hcc : c = c1 := by simpa using hc
        subst hcc
        exact Or.inr ⟨List.mem_cons_self _ _, by simpa using h1⟩
    | cons c2 cs =>
      rw [collapseRuns_cons2] at hc
      by_cases h12 : (p c1 && p c2) = true
      · rw [if_pos h12] at hc
        rcases ih c hc with h | ⟨hm, hp⟩
        · exact Or.inl h
        · exact Or.inr ⟨List.mem_cons_of_mem _ hm, hp⟩
      · rw [if_neg h12] at hc
        rcases List.mem_cons.mp hc with rfl | hc2
        · by_cases h1 : p c1
          · rw [if_pos h1]
            exact Or.inl rfl
          · rw [if_neg h1]
            exact Or.inr ⟨List.mem_cons_self _ _, by simpa using h1⟩
        · rcases ih c hc2 with h | ⟨hm, hp⟩
          · exact Or.inl h
          · exact Or.inr ⟨List.mem_cons_of_mem _ hm, hp⟩

theorem collapseRuns_charsOk {p : Char → Bool} {r : Char} (l : List Char) :
    charsOk p r (collapseRuns p r l) = true := by
  rw [charsOk, List.all_eq_true]
  intro c hc
  rcases collapseRuns_mem l c hc with rfl | ⟨_, hp⟩
  · simp
  · simp [hp]

theorem collapseRuns_head {p : Char → Bool} {r : Char} :
    ∀ (cs : List Char) (c : Char),
      (p c = true ∧ ∃ t, collapseRuns p r (c :: cs) = r :: t) ∨
      (p c = false ∧ ∃ t, collapseRuns p r (c :: cs) = c :: t) := by
  intro cs
  induction cs with
  | nil =>
    intro c
    by_cases h : p c
    · exact Or.inl ⟨h, [], by rw [collapseRuns_single, if_pos h]⟩
    · exact Or.inr ⟨by simpa using h, [], by rw [collapseRuns_single, if_neg h]⟩
  | cons c2 cs2 ih =>
    intro c
    by_cases h1 : p c
    · refine Or.inl ⟨h1, ?_⟩
      rw [collapseRuns_cons2]
      by_cases h2 : p c2
      · rw [if_pos (by simp [h1, h2])]
        rcases ih c2 with ⟨_, t, ht⟩ | ⟨hc2, _⟩
        · exact ⟨t, ht⟩
        · rw [h2] at hc2; cases hc2
      · rw [if_neg (by simp [h2]), if_pos h1]
        exact ⟨_, rfl⟩
    · refine Or.inr ⟨by simpa using h1, ?_⟩
      rw [collapseRuns_cons2, if_neg (by simp [h1]), if_neg h1]
      exact ⟨_, rfl⟩

theorem collapseRuns_adjOk {p : Char → Bool} {r : Char} :
    ∀ l : List Char, adjOk (badPair p) (collapseRuns p r l) = true := by
  intro l
  induction l with
  | nil => rfl
  | cons c1 tl ih =>
    cases tl with
    | nil =>
      rw [collapseRuns_single]
      split <;> exact adjOk_single
    | cons c2 cs =>
      rw [collapseRuns_cons2]
      by_cases h12 : (p c1 && p c2) = true
      · rw [if_pos h12]
        exact ih
      · rw [if_neg h12]
        refine adjOk_cons.mpr ⟨?_, ih⟩
        intro b hb
        rcases collapseRuns_head cs c2 with ⟨h2, t, ht⟩ | ⟨h2, t, ht⟩
        · rw [ht] at hb
          have hbr : b = r := by simpa using hb.symm
          subst hbr
          have h1 : p c1 = false := by
            cases hpc1 : p c1
            · rfl
            · exact absurd (by simp [hpc1, h2]) h12
          rw [if_neg (by simp [h1])]
          simp [badPair, h1]
        · rw [ht] at hb
          have hbc : b = c2 := by simpa using hb.symm
          subst hbc
          simp [badPair, h2]

theorem collapseRuns_adjOk_preserve {p : Char → Bool} {r : Char}
    {bad : Char → Char → Bool}
    (hrl : ∀ b, bad r b = false) (hrr : ∀ a, bad a r = false) :
    ∀ l : List Char, adjOk bad l = true → adjOk bad (collapseRuns p r l) = true := by
  intro l
  induction l with
  | nil => intro _; rfl
  | cons c1 tl ih =>
    intro h
    cases tl with
    | nil =>
      rw [collapseRuns_single]
      split <;> exact adjOk_single
    | cons c2 cs =>
      rw [collapseRuns_cons2]
      by_cases h12 : (p c1 && p c2) = true
      · rw [if_pos h12]
        exact ih (adjOk_tail h)
      · rw [if_neg h12]
        refine adjOk_cons.mpr ⟨?_, ih (adjOk_tail h)⟩
        intro b hb
        by_cases h1 : p c1
        · rw [if_pos h1]
          exact hrl b
        · rw [if_neg h1]
          rcases collapseRuns_head cs c2 with ⟨h2, t, ht⟩ | ⟨h2, t, ht⟩
          · rw [ht] at hb
            have hbr : b = r := by simpa using hb.symm
            subst hbr
            exact hrr c1
          · rw [ht] at hb
            have hbc : b = c2 := by simpa using hb.symm
            subst hbc
            exact (adjOk_cons.mp h).1 _ rfl

theorem collapseRuns_eq_self {p : Char → Bool} {r : Char} :
    ∀ l : List Char, charsOk p r l = true → adjOk (badPair p) l = true →
      collapseRuns p r l = l := by
  intro l
  induction l with
  | nil => intro _ _; rfl
  | cons c1 tl ih =>
    intro hc ha
    have hc1 : p c1 = true → c1 = r := by
      intro h1
      have := (List.all_eq_true.mp hc) c1 (List.mem_cons_self _ _)
      simpa [h1] using this
    have hctl : charsOk p r tl = true :=
      all_of_sublist (List.sublist_cons_self c1 tl) hc
    cases tl with
    | nil =>
      rw [collapseRuns_single]
      by_cases h1 : p c1
      · rw [if_pos h1, hc1 h1]
      · rw [if_neg h1]
    | cons c2 cs =>
      have hpair : badPair p c1 c2 = false := (adjOk_cons.mp ha).1 c2 rfl
      rw [collapseRuns_cons2, if_neg (by simpa [badPair] using hpair),
        ih hctl (adjOk_tail ha)]
      by_cases h1 : p c1
      · rw [if_pos h1, hc1 h1]
      · rw [if_neg h1]

theorem collapseRuns_all_preserve {p : Char → Bool} {r : Char} {f : Char → Bool}
    (hf : f r = true) :
    ∀ l : List Char, l.all f = true → (collapseRuns p r l).all f = true := by
  intro l h
  rw [List.all_eq_true] at h ⊢
  intro c hc
  rcases collapseRuns_mem l c hc with rfl | ⟨hm, _⟩
  · exact hf
  · exact h c hm

/-! ### Lemmas about `replNull`, `lstrip`, `rstrip` -/

theorem replNull_all {f : Char → Bool} (hsp : f ' ' = true) {l : List Char}
    (h : ∀ c ∈ l, c ≠ '\x00' → c ≠ '\xa0' → f c = true) :
    (replNull l).all f = true := by
  rw [replNull, List.all_eq_true]
  intro c hc
  rcases List.mem_map.mp hc with ⟨d, hd, rfl⟩
  by_cases hnull : d = '\x00' ∨ d = '\xa0'
  · rw [if_pos hnull]
    exact hsp
  · push_neg at hnull
    rw [if_neg (by tauto)]
    exact h d hd hnull.1 hnull.2

theorem replNull_eq_self :
    ∀ {l : List Char}, noChar '\x00' l = true → noChar '\xa0' l = true →
    replNull l = l := by
  intro l
  induction l with
  | nil => intro _ _; rfl
  | cons c cs ih =>
    intro h0 ha
    rw [noChar, List.all_cons, Bool.and_eq_true] at h0 ha
    have hc0 : ¬(c = '\x00') := by simpa using h0.1
    have hca : ¬(c = '\xa0') := by simpa using ha.1
    rw [replNull, List.map_cons, if_neg (by tauto)]
    have := ih h0.2 ha.2
    rw [replNull] at this
    rw [this]

theorem lstrip_suffix (l : List Char) : ∃ w, l = w ++ lstrip l := by
  induction l with
  | nil => exact ⟨[], rfl⟩
  | cons c cs ih =>
    by_cases h : pyWs c
    · rcases ih with ⟨w, hw⟩
      refine ⟨c :: w, ?_⟩
      rw [lstrip, if_pos h]
      rw [List.cons_append, ← hw]
    · exact ⟨[], by rw [lstrip, if_neg h]; rfl⟩

theorem lstrip_headOk (l : List Char) : headOkB (lstrip l) = true := by
  induction l with
  | nil => rfl
  | cons c cs ih =>
    rw [lstrip]
    by_cases h : pyWs c
    · rw [if_pos h]; exact ih
    · rw [if_neg h]
      simp [headOkB, h]

theorem lstrip_eq_self {l : List Char} (h : headOkB l = true) : lstrip l = l := by
  cases l with
  | nil => rfl
  | cons c cs =>
    have hc : pyWs c = false := by simpa [headOkB] using h
    rw [lstrip, if_neg (by simp [hc])]

theorem lstrip_sublist (l : List Char) : (lstrip l).Sublist l := by
  induction l with
  | nil => exact List.Sublist.refl _
  | cons c cs ih =>
    rw [lstrip]
    by_cases h : pyWs c
    · rw [if_pos h]; exact ih.cons c
    · rw [if_neg h]

theorem rstrip_prefix (l : List Char) : ∃ w, l = rstrip l ++ w := by
  induction l with
  | nil => exact ⟨[], rfl⟩
  | cons c cs ih =>
    rcases ih with ⟨w, hw⟩
    cases hr : rstrip cs with
    | nil =>
      by_cases h : pyWs c
      · refine ⟨c :: cs, ?_⟩
        rw [rstrip, hr]
        simp [h]
      · refine ⟨w, ?_⟩
        rw [rstrip, hr]
        simp only [h]
        rw [if_neg (by simp [h])]
        rw [hr] at hw
        simpa using congrArg (c :: ·) hw
    | cons d ds =>
      refine ⟨w, ?_⟩
      rw [rstrip, hr]
      rw [hr] at hw
      simpa using congrArg (c :: ·) hw

theorem rstrip_lastOk (l : List Char) : lastOkB (rstrip l) = true := by
  induction l with
  | nil => rfl
  | cons c cs ih =>
    rw [rstrip]
    cases hr : rstrip cs with
    | nil =>
      by_cases h : pyWs c
      · rw [if_pos h]; rfl
      · rw [if_neg h]
        simpa [lastOkB] using h
    | cons d ds =>
      rw [hr] at ih
      simpa [lastOkB] using ih

theorem rstrip_eq_self {l : List Char} (h : lastOkB l = true) : rstrip l = l := by
  induction l with
  | nil => rfl
  | cons c cs ih =>
    cases cs with
    | nil =>
      have hc : pyWs c = false := by simpa [lastOkB] using h
      simp [rstrip, hc]
    | cons d ds =>
      have hcs : lastOkB (d :: ds) = true := by simpa [lastOkB] using h
      rw [rstrip, ih hcs]

theorem rstrip_sublist (l : List Char) : (rstrip l).Sublist l := by
  induction l with
  | nil => exact List.Sublist.refl _
  | cons c cs ih =>
    rw [rstrip]
    cases hr : rstrip cs with
    | nil =>
      by_cases h : pyWs c
      · rw [if_pos h]; exact List.nil_sublist _
      · rw [if_neg h]
        exact (List.nil_sublist cs).cons₂ c
    | cons d ds =>
      rw [hr] at ih
      exact ih.cons₂ c

theorem rstrip_headOk_preserve {l : List Char} (h : headOkB l = true) :
    headOkB (rstrip l) = true := by
  cases l with
  | nil => rfl
  | cons c cs =>
    rw [rstrip]
    cases rstrip cs with
    | nil =>
      by_cases hc : pyWs c
      · rw [if_pos hc]; rfl
      · rw [if_neg hc]; exact h
    | cons d ds => exact h

theorem lstrip_lastOk_preserve {l : List Char} (h : lastOkB l = true) :
    lastOkB (lstrip l) = true := by
  induction l with
  | nil => rfl
  | cons c cs ih =>
    rw [lstrip]
    by_cases hc : pyWs c
    · rw [if_pos hc]
      cases cs with
      | nil => simp [lastOkB, hc] at h
      | cons d ds => exact ih (by simpa [lastOkB] using h)
    · rw [if_neg hc]
      exact h

theorem stripWs_adjOk_preserve {bad : Char → Char → Bool} {l : List Char}
    (h : adjOk bad l = true) : adjOk bad (stripWs l) = true := by
  rcases lstrip_suffix l with ⟨w, hw⟩
  have h1 : adjOk bad (lstrip l) = true := adjOk_append_right (hw ▸ h)
  rcases rstrip_prefix (lstrip l) with ⟨w2, hw2⟩
  exact adjOk_append_left (hw2 ▸ h1)

theorem stripWs_all_preserve {f : Char → Bool} {l : List Char}
    (h : l.all f = true) : (stripWs l).all f = true :=
  all_of_sublist ((rstrip_sublist _).trans (lstrip_sublist l)) h

theorem stripWs_headOk (l : List Char) : headOkB (stripWs l) = true :=
  rstrip_headOk_preserve (lstrip_headOk l)

theorem stripWs_lastOk (l : List Char) : lastOkB (stripWs l) = true :=
  rstrip_lastOk _

theorem stripWs_eq_self {l : List Char} (hh : headOkB l = true)
    (hl : lastOkB l = true) : stripWs l = l := by
  rw [stripWs, lstrip_eq_self hh, rstrip_eq_self hl]

/-! ### Lemmas about `pwsGo` / `parenWsSub` -/

theorem pwsGo_nil (paren : Char) (afterP : Bool) (buf : List Char) :
    pwsGo paren afterP buf [] = if afterP then [] else buf := rfl

theorem pwsGo_cons (paren : Char) (afterP : Bool) (buf : List Char) (c : Char)
    (cs : List Char) :
    pwsGo paren afterP buf (c :: cs) =
      if pyWs c then
        (if afterP then pwsGo paren true [] cs
         else pwsGo paren false (buf ++ [c]) cs)
      else if c = paren then paren :: pwsGo paren true [] cs
      else (if afterP then [] else buf) ++ c :: pwsGo paren false [] cs := rfl

theorem ws_ne_paren {paren a : Char} (hp : pyWs paren = false)
    (ha : pyWs a = true) : ¬(a = paren) := by
  intro he
  rw [he, hp] at ha
  cases ha

theorem badParen_ws_ws {paren a b : Char} (hp : pyWs paren = false)
    (ha : pyWs a = true) (hb : pyWs b = true) : badParen paren a b = false := by
  simp [badParen, ws_ne_paren hp ha, ws_ne_paren hp hb]

theorem badParen_left_safe {paren a : Char} (ha1 : pyWs a = false)
    (ha2 : ¬(a = paren)) (b : Char) : badParen paren a b = false := by
  simp [badParen, ha1, ha2]

theorem badParen_right_safe {paren b : Char} (hb1 : pyWs b = false)
    (hb2 : ¬(b = paren)) (a : Char) : badParen paren a b = false := by
  simp [badParen, hb1, hb2]

theorem pwsGo_sublist (paren : Char) :
    ∀ (l : List Char) (afterP : Bool) (buf : List Char),
      (pwsGo paren afterP buf l).Sublist (buf ++ l) := by
  intro l
  induction l with
  | nil =>
    intro afterP buf
    rw [pwsGo_nil]
    cases afterP
    · simp
    · simp
  | cons c cs ih =>
    intro afterP buf
    rw [pwsGo_cons]
    have hbase : (c :: cs).Sublist (buf ++ c :: cs) := List.sublist_append_right _ _
    by_cases hw : pyWs c
    · rw [if_pos hw]
      cases afterP
      · simp only [Bool.false_eq_true, if_false]
        have := ih false (buf ++ [c])
        rw [List.append_assoc] at this
        simpa using this
      · simp only [if_true]
        have h1 : (pwsGo paren true [] cs).Sublist cs := by simpa using ih true []
        exact (h1.trans (List.sublist_cons_self c cs)).trans hbase
    · rw [if_neg hw]
      by_cases hpar : c = paren
      · rw [if_pos hpar]
        subst hpar
        exact ((ih true []).cons₂ c).trans hbase
      · rw [if_neg hpar]
        cases afterP
        · simp only [Bool.false_eq_true, if_false]
          exact List.Sublist.append (List.Sublist.refl buf) ((ih false []).cons₂ c)
        · simp only [if_true, List.nil_append]
          exact (((ih false []).cons₂ c)).trans hbase

theorem pwsGo_true_head (paren : Char) (hp : pyWs paren = false) :
    ∀ cs : List Char, pwsGo paren true [] cs = [] ∨
      ∃ c t, pwsGo paren true [] cs = c :: t ∧ pyWs c = false := by
  intro cs
  induction cs with
  | nil => exact Or.inl rfl
  | cons c cs' ih =>
    rw [pwsGo_cons]
    by_cases hw : pyWs c
    · rw [if_pos hw, if_pos rfl]
      exact ih
    · rw [if_neg hw]
      by_cases hpar : c = paren
      · rw [if_pos hpar]
        exact Or.inr ⟨paren, _, rfl, hp⟩
      · rw [if_neg hpar]
        exact Or.inr ⟨c, _, rfl, by simpa using hw⟩

theorem pwsGo_false_buf_head (paren : Char) (hp : pyWs paren = false) :
    ∀ (l : List Char) (b : Char) (buf : List Char),
      (∃ t, pwsGo paren false (b :: buf) l = b :: t) ∨
      (∃ c t, pwsGo paren false (b :: buf) l = c :: t ∧ pyWs c = false) := by
  intro l
  induction l with
  | nil =>
    intro b buf
    exact Or.inl ⟨buf, rfl⟩
  | cons c cs ih =>
    intro b buf
    rw [pwsGo_cons]
    by_cases hw : pyWs c
    · rw [if_pos hw]
      simp only [Bool.false_eq_true, if_false, List.cons_append]
      exact ih b (buf ++ [c])
    · rw [if_neg hw]
      by_cases hpar : c = paren
      · rw [if_pos hpar]
        exact Or.inr ⟨paren, _, rfl, hp⟩
      · rw [if_neg hpar]
        exact Or.inl ⟨buf ++ c :: pwsGo paren false [] cs, rfl⟩

theorem pwsGo_head_cases (paren : Char) (hp : pyWs paren = false) (cs : List Char) :
    pwsGo paren false [] cs = [] ∨
    (∃ d t, cs.head? = some d ∧ pwsGo paren false [] cs = d :: t) ∨
    (∃ c t, pwsGo paren false [] cs = c :: t ∧ pyWs c = false) := by
  cases cs with
  | nil => exact Or.inl rfl
  | cons c cs' =>
    rw [pwsGo_cons]
    by_cases hw : pyWs c
    · rw [if_pos hw]
      simp only [Bool.false_eq_true, if_false, List.nil_append]
      rcases pwsGo_false_buf_head paren hp cs' c [] with ⟨t, ht⟩ | ⟨d, t, ht, hd⟩
      · exact Or.inr (Or.inl ⟨c, t, rfl, ht⟩)
      · exact Or.inr (Or.inr ⟨d, t, ht, hd⟩)
    · rw [if_neg hw]
      by_cases hpar : c = paren
      · rw [if_pos hpar]
        exact Or.inr (Or.inr ⟨paren, _, rfl, hp⟩)
      · rw [if_neg hpar]
        exact Or.inr (Or.inr ⟨c, _, rfl, by simpa using hw⟩)

theorem pwsGo_adjOk (paren : Char) (hp : pyWs paren = false) :
    ∀ (l : List Char) (afterP : Bool) (buf : List Char),
      (∀ x ∈ buf, pyWs x = true) →
      adjOk (badParen paren) (pwsGo paren afterP buf l) = true := by
  intro l
  induction l with
  | nil =>
    intro afterP buf hbuf
    rw [pwsGo_nil]
    cases afterP
    · exact adjOk_all (fun a ha b hb => badParen_ws_ws hp (hbuf a ha) (hbuf b hb))
    · rfl
  | cons c cs ih =>
    intro afterP buf hbuf
    rw [pwsGo_cons]
    by_cases hw : pyWs c
    · rw [if_pos hw]
      cases afterP
      · simp only [Bool.false_eq_true, if_false]
        refine ih false (buf ++ [c]) ?_
        intro x hx
        rcases List.mem_append.mp hx with hx | hx
        · exact hbuf x hx
        · rw [List.mem_singleton.mp hx]
          exact hw
      · simp only [if_true]
        exact ih true [] (by simp)
    · rw [if_neg hw]
      by_cases hpar : c = paren
      · rw [if_pos hpar]
        refine adjOk_cons.mpr ⟨?_, ih true [] (by simp)⟩
        intro b hb
        rcases pwsGo_true_head paren hp cs with hnil | ⟨c', t, ht, hc'⟩
        · rw [hnil] at hb; cases hb
        · rw [ht] at hb
          have : c' = b := by simpa using hb
          subst this
          simp [badParen, hp, hc']
      · rw [if_neg hpar]
        refine adjOk_append ?_ ?_ ?_
        · cases afterP
          · exact adjOk_all (fun a ha b hb => badParen_ws_ws hp (hbuf a ha) (hbuf b hb))
          · rfl
        · refine adjOk_cons.mpr ⟨?_, ih false [] (by simp)⟩
          intro b _
          exact badParen_left_safe (by simpa using hw) hpar b
        · intro a b _ hb
          have : c = b := by simpa using hb
          subst this
          exact badParen_right_safe (by simpa using hw) hpar a

theorem pwsGo_adjOk_preserve (paren : Char) {bad : Char → Char → Bool}
    (hp : pyWs paren = false)
    (hparen_l : ∀ b, bad paren b = false)
    (hnonws : ∀ a b, pyWs a = false → pyWs b = false → bad a b = false) :
    ∀ (l : List Char) (afterP : Bool) (buf : List Char),
      (∀ x ∈ buf, pyWs x = true) →
      adjOk bad (buf ++ l) = true →
      adjOk bad (pwsGo paren afterP buf l) = true := by
  intro l
  induction l with
  | nil =>
    intro afterP buf hbuf h
    rw [pwsGo_nil]
    cases afterP
    · simpa using h
    · rfl
  | cons c cs ih =>
    intro afterP buf hbuf h
    have hcs : adjOk bad cs = true :=
      adjOk_tail (@adjOk_append_right bad (c :: cs) buf h)
    rw [pwsGo_cons]
    by_cases hw : pyWs c
    · rw [if_pos hw]
      cases afterP
      · simp only [Bool.false_eq_true, if_false]
        refine ih false (buf ++ [c]) ?_ ?_
        · intro x hx
          rcases List.mem_append.mp hx with hx | hx
          · exact hbuf x hx
          · rw [List.mem_singleton.mp hx]
            exact hw
        · rwa [List.append_assoc]
      · simp only [if_true]
        exact ih true [] (by simp) hcs
    · rw [if_neg hw]
      by_cases hpar : c = paren
      · rw [if_pos hpar]
        refine adjOk_cons.mpr ⟨fun b _ => hparen_l b, ih true [] (by simp) hcs⟩
      · rw [if_neg hpar]
        have hctail : adjOk bad (c :: pwsGo paren false [] cs) = true := by
          refine adjOk_cons.mpr ⟨?_, ih false [] (by simp) hcs⟩
          intro b hb
          rcases pwsGo_head_cases paren hp cs with hnil | ⟨d, t, hd, ht⟩ | ⟨c', t, ht, hc'⟩
          · rw [hnil] at hb; cases hb
          · rw [ht] at hb
            have : d = b := by simpa using hb
            subst this
            have hcc : adjOk bad (c :: cs) = true := adjOk_append_right h
            exact (adjOk_cons.mp hcc).1 d hd
          · rw [ht] at hb
            have : c' = b := by simpa using hb
            subst this
            exact hnonws c c' (by simpa using hw) hc'
        cases afterP
        · simp only [Bool.false_eq_true, if_false]
          refine adjOk_append (@adjOk_append_left bad (c :: cs) buf h) hctail ?_
          intro a b ha hb
          have : c = b := by simpa using hb
          apply @adjOk_cross bad (c :: cs) buf _ _ h ha
          rw [← this]
          rfl
        · simp only [if_true, List.nil_append]
          exact hctail

theorem fnwOk_of_adjOk (paren : Char) :
    ∀ {cs : List Char} {w : Char}, pyWs w = true →
      adjOk (badParen paren) (w :: cs) = true → fnwOk paren cs = true := by
  intro cs
  induction cs with
  | nil => intro w _ _; rfl
  | cons d ds ih =>
    intro w hw h
    have hpair : badParen paren w d = false := (adjOk_cons.mp h).1 d rfl
    have hdnp : ¬(d = paren) := by
      intro he
      rw [badParen, he] at hpair
      simp [hw] at hpair
    rw [fnwOk]
    by_cases hwd : pyWs d
    · rw [if_pos hwd]
      exact ih hwd (adjOk_tail h)
    · rw [if_neg hwd]
      simpa using hdnp

theorem pwsGo_flush (paren : Char) :
    ∀ (cs : List Char) (buf : List Char), fnwOk paren cs = true →
      pwsGo paren false buf cs = buf ++ pwsGo paren false [] cs := by
  intro cs
  induction cs with
  | nil => intro buf _; simp [pwsGo_nil]
  | cons c cs' ih =>
    intro buf hf
    rw [pwsGo_cons, pwsGo_cons]
    by_cases hw : pyWs c
    · have hf' : fnwOk paren cs' = true := by
        rw [fnwOk, if_pos hw] at hf
        exact hf
      rw [if_pos hw, if_pos hw]
      simp only [Bool.false_eq_true, if_false, List.nil_append]
      rw [ih (buf ++ [c]) hf', ih [c] hf', List.append_assoc]
    · have hcp : ¬(c = paren) := by
        rw [fnwOk, if_neg hw] at hf
        simpa using hf
      rw [if_neg hw, if_neg hw, if_neg hcp, if_neg hcp]
      simp

theorem pwsGo_true_false_eq (paren : Char) :
    ∀ cs : List Char, headOkB cs = true →
      pwsGo paren true [] cs = pwsGo paren false [] cs := by
  intro cs h
  cases cs with
  | nil => rfl
  | cons c cs' =>
    have hw : pyWs c = false := by simpa [headOkB] using h
    simp [pwsGo_cons, hw]

theorem pwsGo_eq_self (paren : Char) :
    ∀ l : List Char, adjOk (badParen paren) l = true →
      pwsGo paren false [] l = l := by
  intro l
  induction l with
  | nil => intro _; rfl
  | cons c cs ih =>
    intro h
    rw [pwsGo_cons]
    by_cases hw : pyWs c
    · rw [if_pos hw]
      simp only [Bool.false_eq_true, if_false, List.nil_append]
      rw [pwsGo_flush paren cs [c] (fnwOk_of_adjOk paren hw h),
        ih (adjOk_tail h)]
      rfl
    · rw [if_neg hw]
      by_cases hpar : c = paren
      · rw [if_pos hpar]
        have hcs : headOkB cs = true := by
          cases cs with
          | nil => rfl
          | cons d ds =>
            have hpair : badParen paren c d = false := (adjOk_cons.mp h).1 d rfl
            have hd : pyWs d = false := by
              cases hwd : pyWs d
              · rfl
              · rw [badParen, hpar] at hpair
                simp [hwd] at hpair
            simpa [headOkB] using hd
        rw [hpar, pwsGo_true_false_eq paren cs hcs, ih (adjOk_tail h)]
      · rw [if_neg hpar]
        simp only [Bool.false_eq_true, if_false, List.nil_append]
        rw [ih (adjOk_tail h)]

/-! ### The normal form of `cleanChars` and idempotence of `clean_text` -/

theorem isNl_ws {a : Char} (h : isNl a = true) : pyWs a = true := by
  rcases Bool.or_eq_true_iff.mp h with h | h
  · rw [decide_eq_true_eq] at h
    subst h
    decide
  · rw [decide_eq_true_eq] at h
    subst h
    decide

theorem isSpTab_ws {a : Char} (h : isSpTab a = true) : pyWs a = true := by
  rcases Bool.or_eq_true_iff.mp h with h | h
  · rw [decide_eq_true_eq] at h
    subst h
    decide
  · rw [decide_eq_true_eq] at h
    subst h
    decide

theorem badPair_nonws_left {p : Char → Bool} (hws : ∀ a, p a = true → pyWs a = true)
    {a : Char} (ha : pyWs a = false) (b : Char) : badPair p a b = false := by
  cases hpa : p a
  · simp [badPair, hpa]
  · rw [hws a hpa] at ha
    cases ha

theorem cleanChars_noNull (l : List Char) : noChar '\x00' (cleanChars l) = true := by
  unfold cleanChars parenWsSub noChar
  apply stripWs_all_preserve
  apply all_of_sublist (by simpa using pwsGo_sublist ')' _ false [])
  apply all_of_sublist (by simpa using pwsGo_sublist '(' _ false [])
  apply collapseRuns_all_preserve (by decide)
  apply collapseRuns_all_preserve (by decide)
  apply replNull_all (by decide)
  intro c _ hc _
  simpa using hc

theorem cleanChars_noNbsp (l : List Char) : noChar '\xa0' (cleanChars l) = true := by
  unfold cleanChars parenWsSub noChar
  apply stripWs_all_preserve
  apply all_of_sublist (by simpa using pwsGo_sublist ')' _ false [])
  apply all_of_sublist (by simpa using pwsGo_sublist '(' _ false [])
  apply collapseRuns_all_preserve (by decide)
  apply collapseRuns_all_preserve (by decide)
  apply replNull_all (by decide)
  intro c _ _ hc
  simpa using hc

theorem cleanChars_charsNl (l : List Char) :
    charsOk isNl '\n' (cleanChars l) = true := by
  unfold cleanChars parenWsSub charsOk
  apply stripWs_all_preserve
  apply all_of_sublist (by simpa using pwsGo_sublist ')' _ false [])
  apply all_of_sublist (by simpa using pwsGo_sublist '(' _ false [])
  apply collapseRuns_all_preserve (by decide)
  have := @collapseRuns_charsOk isNl '\n' (replNull l)
  rw [charsOk] at this
  exact this

theorem cleanChars_charsSp (l : List Char) :
    charsOk isSpTab ' ' (cleanChars l) = true := by
  unfold cleanChars parenWsSub charsOk
  apply stripWs_all_preserve
  apply all_of_sublist (by simpa using pwsGo_sublist ')' _ false [])
  apply all_of_sublist (by simpa using pwsGo_sublist '(' _ false [])
  have := @collapseRuns_charsOk isSpTab ' '
    (collapseRuns isNl '\n' (replNull l))
  rw [charsOk] at this
  exact this

theorem cleanChars_adjNl (l : List Char) :
    adjOk (badPair isNl) (cleanChars l) = true := by
  unfold cleanChars parenWsSub
  apply stripWs_adjOk_preserve
  apply pwsGo_adjOk_preserve ')' (by decide)
    (fun b => by simp [badPair, isNl])
    (fun a b ha _ => badPair_nonws_left (fun x => isNl_ws) ha b)
    _ false [] (by simp)
  rw [List.nil_append]
  apply pwsGo_adjOk_preserve '(' (by decide)
    (fun b => by simp [badPair, isNl])
    (fun a b ha _ => badPair_nonws_left (fun x => isNl_ws) ha b)
    _ false [] (by simp)
  rw [List.nil_append]
  apply collapseRuns_adjOk_preserve (by simp [badPair, isNl]) (by simp [badPair, isNl])
  exact collapseRuns_adjOk _

theorem cleanChars_adjSp (l : List Char) :
    adjOk (badPair isSpTab) (cleanChars l) = true := by
  unfold cleanChars parenWsSub
  apply stripWs_adjOk_preserve
  apply pwsGo_adjOk_preserve ')' (by decide)
    (fun b => by simp [badPair, isSpTab])
    (fun a b ha _ => badPair_nonws_left (fun x => isSpTab_ws) ha b)
    _ false [] (by simp)
  rw [List.nil_append]
  apply pwsGo_adjOk_preserve '(' (by decide)
    (fun b => by simp [badPair, isSpTab])
    (fun a b ha _ => badPair_nonws_left (fun x => isSpTab_ws) ha b)
    _ false [] (by simp)
  rw [List.nil_append]
  exact collapseRuns_adjOk _

theorem cleanChars_adjParenL (l : List Char) :
    adjOk (badParen '(') (cleanChars l) = true := by
  unfold cleanChars parenWsSub
  apply stripWs_adjOk_preserve
  apply pwsGo_adjOk_preserve ')' (by decide)
    (fun b => badParen_left_safe (by decide) (by decide) b)
    (fun a b ha hb => by simp [badParen, ha, hb])
    _ false [] (by simp)
  rw [List.nil_append]
  exact pwsGo_adjOk '(' (by decide) _ false [] (by simp)

theorem cleanChars_adjParenR (l : List Char) :
    adjOk (badParen ')') (cleanChars l) = true := by
  unfold cleanChars parenWsSub
  apply stripWs_adjOk_preserve
  exact pwsGo_adjOk ')' (by decide) _ false [] (by simp)

theorem cleanChars_idem (l : List Char) : cleanChars (cleanChars l) = cleanChars l := by
  have h1 := cleanChars_noNull l
  have h2 := cleanChars_noNbsp l
  have h3 := cleanChars_charsNl l
  have h4 := cleanChars_adjNl l
  have h5 := cleanChars_charsSp l
  have h6 := cleanChars_adjSp l
  have h7 := cleanChars_adjParenL l
  have h8 := cleanChars_adjParenR l
  have h9 : headOkB (cleanChars l) = true := stripWs_headOk _
  have h10 : lastOkB (cleanChars l) = true := stripWs_lastOk _
  conv_lhs => rw [cleanChars]
  rw [replNull_eq_self h1 h2, collapseRuns_eq_self _ h3 h4,
    collapseRuns_eq_self _ h5 h6]
  have hL : parenWsSub '(' (cleanChars l) = cleanChars l :=
    pwsGo_eq_self '(' _ h7
  have hR : parenWsSub ')' (cleanChars l) = cleanChars l :=
    pwsGo_eq_self ')' _ h8
  rw [hL, hR, stripWs_eq_self h9 h10]

/-- Claim C9: the text normalizer `clean_text` is idempotent, and empty
input yields empty output (it is total by construction). -/
theorem C9_clean_text_idempotent :
    (∀ text : String, clean_text (clean_text text) = clean_text text) ∧
      clean_text "" = "" := by
  constructor
  · intro text
    by_cases h : text = ""
    · subst h
      rfl
    · have hinner : clean_text text = String.mk (cleanChars text.data) := by
        rw [clean_text, if_neg h]
      rw [hinner]
      by_cases h2 : String.mk (cleanChars text.data) = ""
      · rw [clean_text, if_pos h2]
        exact h2.symm
      · rw [clean_text, if_neg h2]
        have hdata : (String.mk (cleanChars text.data)).data = cleanChars text.data :=
          rfl
        rw [hdata, cleanChars_idem]
  · rfl

/-! ### ASCII case lemmas for `Char` -/

theorem char_toNat_ofNat (n : ℕ) (h : n.isValidChar) : (Char.ofNat n).toNat = n := by
  have hs : n < UInt32.size := by
    rcases h with h | ⟨_, h2⟩
    · exact Nat.lt_trans h (by norm_num [UInt32.size])
    · exact Nat.lt_trans h2 (by norm_num [UInt32.size])
  rw [Char.ofNat, dif_pos h]
  show (UInt32.ofNat' n _).toNat = n
  simp [Char.ofNatAux, UInt32.ofNat', UInt32.toNat]

theorem isDigit_iff (c : Char) : c.isDigit = true ↔ 48 ≤ c.toNat ∧ c.toNat ≤ 57 := by
  simp [Char.isDigit, UInt32.le_def, BitVec.le_def, Char.toNat, UInt32.toNat]

theorem isUpper_iff (c : Char) : c.isUpper = true ↔ 65 ≤ c.toNat ∧ c.toNat ≤ 90 := by
  simp [Char.isUpper, UInt32.le_def, BitVec.le_def, Char.toNat, UInt32.toNat]

theorem isLower_iff (c : Char) : c.isLower = true ↔ 97 ≤ c.toNat ∧ c.toNat ≤ 122 := by
  simp [Char.isLower, UInt32.le_def, BitVec.le_def, Char.toNat, UInt32.toNat]

theorem isAlpha_iff (c : Char) : c.isAlpha = true ↔
    (65 ≤ c.toNat ∧ c.toNat ≤ 90) ∨ (97 ≤ c.toNat ∧ c.toNat ≤ 122) := by
  simp [Char.isAlpha, isUpper_iff, isLower_iff]

theorem toLower_eq (c : Char) :
    c.toLower = if 65 ≤ c.toNat ∧ c.toNat ≤ 90 then Char.ofNat (c.toNat + 32) else c := by
  rw [Char.toLower]

theorem toUpper_eq (c : Char) :
    c.toUpper = if 97 ≤ c.toNat ∧ c.toNat ≤ 122 then Char.ofNat (c.toNat - 32) else c := by
  rw [Char.toUpper]

theorem toNat_toUpper_of_lower (c : Char) (h : 97 ≤ c.toNat ∧ c.toNat ≤ 122) :
    (c.toUpper).toNat = c.toNat - 32 := by
  rw [toUpper_eq, if_pos h]
  exact char_toNat_ofNat _ (Or.inl (by omega))

theorem toNat_toLower_of_upper (c : Char) (h : 65 ≤ c.toNat ∧ c.toNat ≤ 90) :
    (c.toLower).toNat = c.toNat + 32 := by
  rw [toLower_eq, if_pos h]
  exact char_toNat_ofNat _ (Or.inl (by omega))

theorem toLower_toUpper (c : Char) : c.toUpper.toLower = c.toLower := by
  by_cases h : 97 ≤ c.toNat ∧ c.toNat ≤ 122
  · have h2 : (c.toUpper).toNat = c.toNat - 32 := toNat_toUpper_of_lower c h
    rw [toLower_eq c.toUpper, if_pos (by rw [h2]; omega), h2]
    rw [toLower_eq c, if_neg (by omega)]
    have h3 : c.toNat - 32 + 32 = c.toNat := by omega
    rw [h3, Char.ofNat_toNat]
  · rw [toUpper_eq, if_neg h]

theorem toLower_toLower (c : Char) : c.toLower.toLower = c.toLower := by
  by_cases h : 65 ≤ c.toNat ∧ c.toNat ≤ 90
  · have h2 : (c.toLower).toNat = c.toNat + 32 := toNat_toLower_of_upper c h
    rw [toLower_eq c.toLower, if_neg (by rw [h2]; omega)]
  · have h1 : c.toLower = c := by rw [toLower_eq, if_neg h]
    rw [h1, h1]

theorem isAlpha_toUpper (c : Char) (h : c.isAlpha = true) : (c.toUpper).isAlpha = true := by
  rcases (isAlpha_iff c).mp h with h' | h'
  · rw [toUpper_eq, if_neg (by omega)]
    exact h
  · apply (isAlpha_iff _).mpr
    left
    have := toNat_toUpper_of_lower c h'
    omega

theorem isAlpha_toLower (c : Char) (h : c.isAlpha = true) : (c.toLower).isAlpha = true := by
  rcases (isAlpha_iff c).mp h with h' | h'
  · apply (isAlpha_iff _).mpr
    right
    have := toNat_toLower_of_upper c h'
    omega
  · rw [toLower_eq, if_neg (by omega)]
    exact h

theorem isDigit_of_isAlpha (c : Char) (h : c.isAlpha = true) : c.isDigit = false := by
  rcases (isAlpha_iff c).mp h with h' | h' <;>
  · rw [← Bool.not_eq_true]
    intro hd
    have := (isDigit_iff c).mp hd
    omega

theorem pyWs_of_isAlpha (c : Char) (h : c.isAlpha = true) : pyWs c = false := by
  rw [← Bool.not_eq_true]
  intro hw
  have hm : c ∈ pyWsChars := by simpa [pyWs] using hw
  have hall : ∀ d ∈ pyWsChars, d.isAlpha = false := by decide
  rw [hall c hm] at h
  exact Bool.false_ne_true h

/-! ### Title casing does not disturb the `Pasal\s+\d+` scanner -/

theorem caseEq_refl (c : Char) : caseEq c c := ⟨rfl, rfl, rfl⟩

theorem caseEq_toUpper (c : Char) (h : c.isAlpha = true) : caseEq c c.toUpper := by
  refine ⟨toLower_toUpper c, ?_, ?_⟩
  · rw [isDigit_of_isAlpha c h, isDigit_of_isAlpha _ (isAlpha_toUpper c h)]
  · rw [pyWs_of_isAlpha c h, pyWs_of_isAlpha _ (isAlpha_toUpper c h)]

theorem caseEq_toLower (c : Char) (h : c.isAlpha = true) : caseEq c c.toLower := by
  refine ⟨toLower_toLower c, ?_, ?_⟩
  · rw [isDigit_of_isAlpha c h, isDigit_of_isAlpha _ (isAlpha_toLower c h)]
  · rw [pyWs_of_isAlpha c h, pyWs_of_isAlpha _ (isAlpha_toLower c h)]

theorem pyTitleGo_caseEq (l : List Char) : ∀ b, List.Forall₂ caseEq l (pyTitleGo b l) := by
  induction l with
  | nil => intro b; exact List.Forall₂.nil
  | cons c cs ih =>
    intro b
    by_cases hc : c.isAlpha
    · by_cases hb : b
      · subst hb
        simp only [pyTitleGo, hc, if_pos]
        exact List.Forall₂.cons (caseEq_toLower c hc) (ih true)
      · have hb' : b = false := Bool.eq_false_iff.mpr hb
        subst hb'
        simp only [pyTitleGo, hc, if_pos]
        exact List.Forall₂.cons (caseEq_toUpper c hc) (ih true)
    · have hc' : c.isAlpha = false := Bool.eq_false_iff.mpr hc
      simp only [pyTitleGo, hc', Bool.false_eq_true, if_false]
      exact List.Forall₂.cons (caseEq_refl c) (ih false)

theorem matchLitCi_caseEq (w : List Char) :
    ∀ {l l' : List Char}, List.Forall₂ caseEq l l' →
      (matchLitCi w l = none ∧ matchLitCi w l' = none) ∨
      (∃ r r', matchLitCi w l = some r ∧ matchLitCi w l' = some r' ∧
        List.Forall₂ caseEq r r') := by
  induction w with
  | nil =>
    intro l l' h
    exact Or.inr ⟨l, l', rfl, rfl, h⟩
  | cons p ps ih =>
    intro l l' h
    cases h with
    | nil => exact Or.inl ⟨rfl, rfl⟩
    | cons hcd htl =>
      rename_i c d cs ds
      by_cases hcp : c.toLower = p
      · have hdp : d.toLower = p := by rw [hcd.1, hcp]
        have e1 : matchLitCi (p :: ps) (c :: cs) = matchLitCi ps cs := by
          simp [matchLitCi, hcp]
        have e2 : matchLitCi (p :: ps) (d :: ds) = matchLitCi ps ds := by
          simp [matchLitCi, hdp]
        rw [e1, e2]
        exact ih htl
      · have hdp : ¬ d.toLower = p := by rw [hcd.1]; exact hcp
        have e1 : matchLitCi (p :: ps) (c :: cs) = none := by
          simp [matchLitCi, hcp]
        have e2 : matchLitCi (p :: ps) (d :: ds) = none := by
          simp [matchLitCi, hdp]
        exact Or.inl ⟨e1, e2⟩

theorem takeWhile_pyWs_caseEq {l l' : List Char} (h : List.Forall₂ caseEq l l') :
    (l.takeWhile pyWs).length = (l'.takeWhile pyWs).length ∧
      List.Forall₂ caseEq (l.dropWhile pyWs) (l'.dropWhile pyWs) := by
  induction h with
  | nil => exact ⟨rfl, List.Forall₂.nil⟩
  | cons hcd htl ih =>
    rename_i c d cs ds
    by_cases hw : pyWs c
    · have hw' : pyWs d = true := by rw [hcd.2.2, hw]
      simp only [List.takeWhile_cons, List.dropWhile_cons, hw, hw', if_pos, List.length_cons]
      exact ⟨by rw [ih.1], ih.2⟩
    · have hw' : pyWs d = false := by rw [hcd.2.2]; exact Bool.eq_false_iff.mpr hw
      have hwf : pyWs c = false := Bool.eq_false_iff.mpr hw
      simp only [List.takeWhile_cons, List.dropWhile_cons, hwf, hw', Bool.false_eq_true, if_false]
      exact ⟨by simp, List.Forall₂.cons hcd htl⟩

theorem headIsDigit_caseEq {u v : List Char} (h : List.Forall₂ caseEq u v) :
    headIsDigit u = headIsDigit v := by
  cases h with
  | nil => rfl
  | cons hcd _ => simpa [headIsDigit] using hcd.2.1.symm

theorem pasalKwAt_caseEq {l l' : List Char} (h : List.Forall₂ caseEq l l') :
    pasalKwAt l = pasalKwAt l' := by
  rcases matchLitCi_caseEq ['p', 'a', 's', 'a', 'l'] h with ⟨h1, h2⟩ | ⟨r, r', h1, h2, hrr⟩
  · rw [pasalKwAt, pasalKwAt, h1, h2]
  · rw [pasalKwAt, pasalKwAt, h1, h2]
    rcases takeWhile_pyWs_caseEq hrr with ⟨hlen, hdrop⟩
    simp only [hlen]
    by_cases hz : (r'.takeWhile pyWs).length = 0
    · simp only [hz, if_pos]
    · simp only [hz, if_neg, not_false_iff]
      exact headIsDigit_caseEq hdrop

theorem containsPasalNum_caseEq :
    ∀ (n : ℕ) {l l' : List Char}, List.Forall₂ caseEq l l' →
      containsPasalNum n l = containsPasalNum n l' := by
  intro n
  induction n with
  | zero => intro l l' _; rfl
  | succ m ih =>
    intro l l' h
    cases h with
    | nil => rfl
    | cons hcd htl =>
      rename_i c d cs ds
      show (pasalKwAt (c :: cs) || containsPasalNum m cs) =
        (pasalKwAt (d :: ds) || containsPasalNum m ds)
      rw [pasalKwAt_caseEq (List.Forall₂.cons hcd htl), ih htl]

/-- The case-insensitive `Pasal\s+\d+` check survives `str.title()`. -/
theorem containsPasalNum_pyTitle {q : List Char} (h : containsPasalNum q.length q = true) :
    containsPasalNum (pyTitle q).length (pyTitle q) = true := by
  have hf := pyTitleGo_caseEq q false
  have hlen := hf.length_eq
  rw [show pyTitle q = pyTitleGo false q from rfl, ← hlen,
    ← containsPasalNum_caseEq q.length hf]
  exact h

/-! ### The alphabetical order on strings -/

theorem charListLt_irrefl : ∀ (a : List Char), charListLt a a = false := by
  intro a
  induction a with
  | nil => rfl
  | cons x xs ih => simp [charListLt, lt_irrefl, ih]

theorem charListLt_trans :
    ∀ {a b c : List Char}, charListLt a b = true → charListLt b c = true →
      charListLt a c = true := by
  intro a
  induction a with
  | nil =>
    intro b c h1 h2
    cases b with
    | nil => exact h2
    | cons y ys =>
      cases c with
      | nil => simp [charListLt] at h2
      | cons z zs => rfl
  | cons x xs ih =>
    intro b c h1 h2
    cases b with
    | nil => simp [charListLt] at h1
    | cons y ys =>
      cases c with
      | nil => simp [charListLt] at h2
      | cons z zs =>
        simp only [charListLt] at h1 h2 ⊢
        rcases lt_trichotomy x y with hxy | hxy | hxy
        · rcases lt_trichotomy y z with hyz | hyz | hyz
          · simp [lt_trans hxy hyz]
          · subst hyz
            simp [hxy]
          · rw [if_neg (lt_asymm hyz), if_pos hyz] at h2
            simp at h2
        · subst hxy
          rw [if_neg (lt_irrefl x), if_neg (lt_irrefl x)] at h1
          rcases lt_trichotomy x z with hyz | hyz | hyz
          · simp [hyz]
          · subst hyz
            rw [if_neg (lt_irrefl x), if_neg (lt_irrefl x)] at h2 ⊢
            exact ih h1 h2
          · rw [if_neg (lt_asymm hyz), if_pos hyz] at h2
            simp at h2
        · rw [if_neg (lt_asymm hxy), if_pos hxy] at h1
          simp at h1

theorem charListLt_conn :
    ∀ (a b : List Char), charListLt a b = true ∨ charListLt b a = true ∨ a = b := by
  intro a
  induction a with
  | nil =>
    intro b
    cases b with
    | nil => exact Or.inr (Or.inr rfl)
    | cons y ys => exact Or.inl rfl
  | cons x xs ih =>
    intro b
    cases b with
    | nil => exact Or.inr (Or.inl rfl)
    | cons y ys =>
      rcases lt_trichotomy x y with hxy | hxy | hxy
      · left
        simp [charListLt, hxy]
      · subst hxy
        rcases ih ys with h | h | h
        · left
          simp [charListLt, lt_irrefl, h]
        · right; left
          simp [charListLt, lt_irrefl, h]
        · subst h
          exact Or.inr (Or.inr rfl)
      · right; left
        simp [charListLt, hxy]

theorem strLeB_total (s t : String) : strLeB s t = true ∨ strLeB t s = true := by
  unfold strLeB
  by_cases h : charListLt t.data s.data = true
  · right
    have h2 : charListLt s.data t.data = false := by
      rw [← Bool.not_eq_true]
      intro h3
      have h4 := charListLt_trans h h3
      rw [charListLt_irrefl] at h4
      exact Bool.false_ne_true h4
    rw [h2]
    rfl
  · left
    rw [Bool.not_eq_true] at h
    rw [h]
    rfl

theorem strLeB_trans (a b c : String) (h1 : strLeB a b = true) (h2 : strLeB b c = true) :
    strLeB a c = true := by
  unfold strLeB at h1 h2 ⊢
  rw [Bool.not_eq_eq_eq_not, Bool.not_true] at h1 h2 ⊢
  rw [← Bool.not_eq_true] at h1 h2 ⊢
  intro hca
  rcases charListLt_conn c.data b.data with h | h | h
  · exact h2 h
  · exact h1 (charListLt_trans h hca)
  · rw [← h] at h1
    exact h1 hca

/-! ### Shape of the `extract_pasal` output -/

/-- Every element produced by `pasalPieces` is the title-casing of a stripped
piece that passed the keyword and length checks. -/
theorem pasalPieces_shape {m x : List Char} (h : x ∈ pasalPieces m) :
    ∃ q : List Char, x = pyTitle q ∧ containsPasalNum q.length q = true ∧
      5 ≤ q.length ∧ q.length ≤ 150 := by
  unfold pasalPieces at h
  rcases List.mem_filterMap.mp h with ⟨piece, _, hp⟩
  by_cases hg : (containsPasalNum (stripWs piece).length (stripWs piece) &&
      decide (5 ≤ (stripWs piece).length) && decide ((stripWs piece).length ≤ 150)) = true
  · rw [if_pos hg] at hp
    have hg' : containsPasalNum (stripWs piece).length (stripWs piece) = true ∧
        5 ≤ (stripWs piece).length ∧ (stripWs piece).length ≤ 150 := by
      simpa [and_assoc] using hg
    exact ⟨stripWs piece, (Option.some.injEq _ _ ▸ hp).symm, hg'.1, hg'.2.1, hg'.2.2⟩
  · rw [if_neg hg] at hp
    exact absurd hp (Option.noConfusion)

/-- Every string returned by `extract_pasal` is the title-casing of a
candidate that passed the keyword and length checks. -/
theorem extract_pasal_mem_shape {text : String} {p : String} (h : p ∈ extract_pasal text) :
    ∃ q : List Char, p = String.mk (pyTitle q) ∧ containsPasalNum q.length q = true ∧
      5 ≤ q.length ∧ q.length ≤ 150 := by
  unfold extract_pasal at h
  have h1 := (sortBy_perm strLeB _).mem_iff.mp h
  have h2 := mem_dedupFirst h1
  rcases List.mem_map.mp h2 with ⟨x, hx, hpx⟩
  rcases List.mem_flatMap.mp hx with ⟨m, _, hxm⟩
  rcases pasalPieces_shape hxm with ⟨q, rfl, hcp, h5, h150⟩
  exact ⟨q, hpx.symm, hcp, h5, h150⟩

/-- C4: for every input text, `extract_pasal` returns a deduplicated list
that is sorted alphabetically (by Python string order) rather than by
position in the document; every returned candidate is between 5 and 150
characters and contains the statute citation keyword `Pasal` followed by a
number (checked case-insensitively, as the code does before title-casing);
and for the input "Pasal 5 jo Pasal 3" the compound citation is split on
the conjunction, giving exactly ["Pasal 3", "Pasal 5"]. -/
theorem C4_extract_pasal_sorted (text : String) :
    (extract_pasal text).Nodup ∧
    (extract_pasal text).Pairwise (fun a b => strLeB a b = true) ∧
    (∀ p ∈ extract_pasal text, 5 ≤ p.length ∧ p.length ≤ 150 ∧
      containsPasalNum p.length p.data = true) ∧
    extract_pasal "Pasal 5 jo Pasal 3" = ["Pasal 3", "Pasal 5"] := by
  refine ⟨?_, ?_, ?_, ?_⟩
  · unfold extract_pasal
    exact ((sortBy_perm strLeB _).nodup_iff).mpr (dedupFirst_nodup _)
  · unfold extract_pasal
    exact sortBy_pairwise (fun x y => strLeB_total x y) (fun x y z => strLeB_trans x y z) _
  · intro p hp
    rcases extract_pasal_mem_shape hp with ⟨q, rfl, hcp, h5, h150⟩
    have hlq : (pyTitle q).length = q.length := (pyTitleGo_caseEq q false).length_eq.symm
    have hplen : (String.mk (pyTitle q)).length = (pyTitle q).length := rfl
    refine ⟨?_, ?_, ?_⟩
    · rw [hplen, hlq]; exact h5
    · rw [hplen, hlq]; exact h150
    · show containsPasalNum (pyTitle q).length (pyTitle q) = true
      exact containsPasalNum_pyTitle hcp
  · decide

/-- Witness for C4: the candidate "Pasal 3" returned for the input
"Pasal 5 jo Pasal 3" satisfies the length bounds and the keyword check. -/
theorem C4_extract_pasal_sorted_witness :
    5 ≤ String.length "Pasal 3" ∧ String.length "Pasal 3" ≤ 150 ∧
      containsPasalNum (String.length "Pasal 3") (String.data "Pasal 3") = true :=
  (C4_extract_pasal_sorted "Pasal 5 jo Pasal 3").2.2.1 "Pasal 3" (by decide)



/-- `firstSome` only returns the value of some list element. -/
theorem firstSome_some {f : α → Option β} :
    ∀ {l : List α} {b : β}, firstSome f l = some b → ∃ a ∈ l, f a = some b := by
  intro l
  induction l with
  | nil => intro b h; exact absurd h (by simp [firstSome])
  | cons a as ih =>
    intro b h
    unfold firstSome at h
    by_cases ha : ∃ b0, f a = some b0
    · rcases ha with ⟨b0, hb0⟩
      rw [hb0] at h
      refine ⟨a, List.mem_cons_self a as, ?_⟩
      rw [hb0]
      exact h
    · have ha' : f a = none := Option.eq_none_iff_forall_not_mem.mpr (by
        intro b0 hb0
        exact ha ⟨b0, hb0⟩)
      rw [ha'] at h
      rcases ih h with ⟨x, hx, hfx⟩
      exact ⟨x, List.mem_cons_of_mem a hx, hfx⟩

/-- What an accepted `validateDate` tells us about the groups. -/
theorem validateDate_some {day yr : List Char} {ms : String} {cy : ℕ} {s : String}
    (h : validateDate day yr ms cy = some s) :
    1 ≤ digitsToNat day ∧ digitsToNat day ≤ 31 ∧
      1 ≤ digitsToNat ms.data ∧ digitsToNat ms.data ≤ 12 ∧
      1990 ≤ digitsToNat yr ∧ digitsToNat yr ≤ cy + 5 ∧
      s = toString (digitsToNat yr) ++ "-" ++ ms ++ "-" ++ pad2 (digitsToNat day) := by
  unfold validateDate at h
  by_cases hc : 1 ≤ digitsToNat day ∧ digitsToNat day ≤ 31 ∧
      1 ≤ digitsToNat ms.data ∧ digitsToNat ms.data ≤ 12 ∧
      1990 ≤ digitsToNat yr ∧ digitsToNat yr ≤ cy + 5
  · rw [if_pos hc] at h
    exact ⟨hc.1, hc.2.1, hc.2.2.1, hc.2.2.2.1, hc.2.2.2.2.1, hc.2.2.2.2.2,
      (Option.some.injEq _ _ ▸ h).symm⟩
  · rw [if_neg hc] at h
    exact absurd h (Option.noConfusion)

theorem lookupBulan_mem {k : List Char} {v : String} :
    ∀ {m : List (List Char × String)}, lookupBulan k m = some v → v ∈ m.map Prod.snd := by
  intro m
  induction m with
  | nil => intro h; exact absurd h (by simp [lookupBulan])
  | cons p rest ih =>
    intro h
    unfold lookupBulan at h
    by_cases hk : k = p.1
    · rw [if_pos hk] at h
      simp only [List.map_cons, List.mem_cons]
      exact Or.inl (Option.some.injEq _ _ ▸ h).symm
    · rw [if_neg hk] at h
      exact List.mem_cons_of_mem _ (ih h)

/-- Every `BULAN_MAP` value is the zero-padded form of its month number. -/
theorem bulan_values_pad2 :
    ∀ v ∈ BULAN_MAP.map Prod.snd,
      pad2 (digitsToNat v.data) = v ∧ 1 ≤ digitsToNat v.data ∧ digitsToNat v.data ≤ 12 := by
  decide

/-- What an accepted candidate tells us: clean context window, day, month
and year ranges, and the ISO format of the result. -/
theorem tryCandidate_some {cy : ℕ} {sa : List Char} {i len : ℕ}
    {day mon yr : List Char} {s : String}
    (h : tryCandidate cy sa (i, (day, mon, yr), len) = some s) :
    hasIdentityKw (ctxWindow sa i len) = false ∧
      ∃ mn : ℕ, 1 ≤ digitsToNat day ∧ digitsToNat day ≤ 31 ∧ 1 ≤ mn ∧ mn ≤ 12 ∧
        1990 ≤ digitsToNat yr ∧ digitsToNat yr ≤ cy + 5 ∧
        s = toString (digitsToNat yr) ++ "-" ++ pad2 mn ++ "-" ++ pad2 (digitsToNat day) := by
  have h2 : (if hasIdentityKw (ctxWindow sa i len) then none
      else
        match lookupBulan (mon.map Char.toLower) BULAN_MAP with
        | some month_str => validateDate day yr month_str cy
        | none =>
          if !mon.isEmpty && mon.all Char.isDigit &&
              decide (1 ≤ digitsToNat mon) && decide (digitsToNat mon ≤ 12) then
            validateDate day yr (pad2 (digitsToNat mon)) cy
          else none) = some s := h
  clear h
  rename Eq _ _ => h
  by_cases hkw : hasIdentityKw (ctxWindow sa i len) = true
  · rw [if_pos hkw] at h
    exact absurd h (Option.noConfusion)
  · have hkw' : hasIdentityKw (ctxWindow sa i len) = false := Bool.eq_false_iff.mpr hkw
    rw [if_neg hkw] at h
    refine ⟨hkw', ?_⟩
    by_cases hlk : ∃ ms, lookupBulan (mon.map Char.toLower) BULAN_MAP = some ms
    · rcases hlk with ⟨ms, hms⟩
      rw [hms] at h
      rcases validateDate_some h with ⟨h1, h2, h3, h4, h5, h6, h7⟩
      rcases bulan_values_pad2 ms (lookupBulan_mem hms) with ⟨hpad, _, _⟩
      exact ⟨digitsToNat ms.data, h1, h2, h3, h4, h5, h6, by rw [h7, hpad]⟩
    · have hlk' : lookupBulan (mon.map Char.toLower) BULAN_MAP = none :=
        Option.eq_none_iff_forall_not_mem.mpr (by
          intro ms hms
          exact hlk ⟨ms, hms⟩)
      rw [hlk'] at h
      by_cases hg : (!mon.isEmpty && mon.all Char.isDigit &&
          decide (1 ≤ digitsToNat mon) && decide (digitsToNat mon ≤ 12)) = true
      · rw [if_pos hg] at h
        rcases validateDate_some h with ⟨h1, h2, _, _, h5, h6, h7⟩
        have hg' : 1 ≤ digitsToNat mon ∧ digitsToNat mon ≤ 12 := by
          simp only [Bool.and_eq_true, decide_eq_true_eq] at hg
          exact ⟨hg.1.2, hg.2⟩
        exact ⟨digitsToNat mon, h1, h2, hg'.1, hg'.2, h5, h6, h7⟩
      · rw [if_neg hg] at h
        exact absurd h (Option.noConfusion)

/-- C6: `extract_tanggal` accepts a match only if the day is in [1,31], the
month is in [1,12], the year is in [1990, currentYear+5] and the
surrounding context window (150 characters on either side) contains no
identity/birthdate keyword, returning the date as zero-padded ISO
`YYYY-MM-DD`; consequently "32 Januari 2021" produces no date,
"15 Januari 2021" in a non-identity context produces "2021-01-15", and the
same date pattern with "umur" in the context window is rejected. -/
theorem C6_extract_tanggal_gate (cy : ℕ) (text : String) :
    (extract_tanggal cy text ≠ "" →
      ∃ i len : ℕ, ∃ day mon yr : List Char,
        (i, (day, mon, yr), len) ∈ tanggalCandidates (text.data.take 8000) ∧
        hasIdentityKw (ctxWindow (text.data.take 8000) i len) = false ∧
        ∃ mn : ℕ,
          1 ≤ digitsToNat day ∧ digitsToNat day ≤ 31 ∧ 1 ≤ mn ∧ mn ≤ 12 ∧
          1990 ≤ digitsToNat yr ∧ digitsToNat yr ≤ cy + 5 ∧
          extract_tanggal cy text =
            toString (digitsToNat yr) ++ "-" ++ pad2 mn ++ "-" ++ pad2 (digitsToNat day)) ∧
    extract_tanggal 2025 "32 Januari 2021" = "" ∧
    extract_tanggal 2025 "putusan dibacakan 15 Januari 2021" = "2021-01-15" ∧
    extract_tanggal 2025 "umur: 15 Januari 2021" = "" := by
  refine ⟨?_, by decide, by decide, by decide⟩
  intro hne
  have he : extract_tanggal cy text =
      (match firstSome (tryCandidate cy (text.data.take 8000))
          (tanggalCandidates (text.data.take 8000)) with
        | some s => s
        | none => "") := rfl
  rw [he] at hne ⊢
  by_cases hf : ∃ s, firstSome (tryCandidate cy (text.data.take 8000))
      (tanggalCandidates (text.data.take 8000)) = some s
  · rcases hf with ⟨s, hs⟩
    rw [hs] at hne ⊢
    rcases firstSome_some hs with ⟨cand, hmem, hcand⟩
    rcases cand with ⟨i, ⟨day, mon, yr⟩, len⟩
    rcases tryCandidate_some hcand with ⟨hkw, mn, h1, h2, h3, h4, h5, h6, h7⟩
    exact ⟨i, len, day, mon, yr, hmem, hkw, mn, h1, h2, h3, h4, h5, h6, h7⟩
  · have hf' : firstSome (tryCandidate cy (text.data.take 8000))
        (tanggalCandidates (text.data.take 8000)) = none :=
      Option.eq_none_iff_forall_not_mem.mpr (by
        intro s hsm
        exact hf ⟨s, hsm⟩)
    rw [hf'] at hne
    exact absurd rfl hne

/-- Witness for C6: the accepted candidate behind the date extracted from
"putusan dibacakan 15 Januari 2021". -/
theorem C6_extract_tanggal_gate_witness :
    ∃ i len : ℕ, ∃ day mon yr : List Char,
      (i, (day, mon, yr), len) ∈
        tanggalCandidates (String.data "putusan dibacakan 15 Januari 2021" |>.take 8000) ∧
      hasIdentityKw (ctxWindow (String.data "putusan dibacakan 15 Januari 2021" |>.take 8000)
        i len) = false ∧
      ∃ mn : ℕ,
        1 ≤ digitsToNat day ∧ digitsToNat day ≤ 31 ∧ 1 ≤ mn ∧ mn ≤ 12 ∧
        1990 ≤ digitsToNat yr ∧ digitsToNat yr ≤ 2025 + 5 ∧
        extract_tanggal 2025 "putusan dibacakan 15 Januari 2021" =
          toString (digitsToNat yr) ++ "-" ++ pad2 mn ++ "-" ++ pad2 (digitsToNat day) :=
  (C6_extract_tanggal_gate 2025 "putusan dibacakan 15 Januari 2021").1 (by decide)



/-- C7: `extract_metadata` is total over every text input — modelled
parametrically in the five unmodelled field extractors, for the empty
string it takes the `if not text` short-circuit, and for any other input it
builds the full 11-field record (so no code path raises); but on empty
input it returns the empty dict `{}`, not a record with eleven empty
fields: each field key is absent rather than mapped to an empty value. -/
theorem C7_extract_metadata_total (fx : FieldExtractors) (cy : ℕ) (text : String) :
    (text = "" → extract_metadata fx cy text = []) ∧
    (text ≠ "" → (extract_metadata fx cy text).map Prod.fst =
      ["no_perkara", "tanggal", "jenis_perkara", "pasal", "nama", "umur",
       "jenis_kelamin", "pekerjaan", "alamat", "status_hukuman", "ringkasan_fakta"]) := by
  constructor
  · intro h
    rw [extract_metadata, if_pos h]
  · intro h
    rw [extract_metadata, if_neg h]
    rfl

/-- Counterexample for C7 as stated: on empty input `extract_metadata`
returns the empty dict, which is not the all-empty-field record the claim
describes. -/
theorem C7_extract_metadata_empty :
    extract_metadata trivialExtractors 2025 "" = [] ∧
      ([] : List (String × String)) ≠ emptyFieldRecord := by
  constructor
  · rfl
  · decide

/-- Witness for C7: the totality statement applied at the empty string and
at a one-character text. -/
theorem C7_extract_metadata_total_witness :
    extract_metadata trivialExtractors 2025 "" = [] ∧
      (extract_metadata trivialExtractors 2025 "x").map Prod.fst =
        ["no_perkara", "tanggal", "jenis_perkara", "pasal", "nama", "umur",
         "jenis_kelamin", "pekerjaan", "alamat", "status_hukuman", "ringkasan_fakta"] :=
  ⟨(C7_extract_metadata_total trivialExtractors 2025 "").1 rfl,
    (C7_extract_metadata_total trivialExtractors 2025 "x").2 (by decide)⟩

end UAS
